import Mathlib

/-!
# gowiki: a verification development for `wiki.go`

The program is a small wiki server.  This file embeds its routing, link
rendering, page store and request handlers in Lean and proves properties of
them.

Modelling conventions.

* Go strings and byte slices are modelled as `List Char`: the sequence of
  runes of the text, which is the unit the `regexp` package matches on.
  Positions are rune indices.  Text that is not valid UTF-8 is outside the
  model.
* The `regexp` package is modelled by a small backtracking matcher with the
  leftmost-first semantics that the package documents.  The two patterns of the
  program are written as trees mirroring the pattern strings.
* The file system is an explicit state: a map from file names to contents,
  together with the set of names that cannot be written.
* The template set, the Unicode lower-casing table and the path cleaning
  function of `net/http` are parameters (`Env`).
-/

namespace GoWiki

/-! ## Regular expressions (the fragment of `regexp` the program uses) -/

/-- Syntax of the regular expressions used by the program. -/
inductive Regexp where
  | emptyMatch
  | beginText
  | endText
  | lit (c : Char)
  | charClass (ranges : List (Char × Char))
  | cat (r s : Regexp)
  | alt (r s : Regexp)
  | plus (r : Regexp)
  | capture (idx : Nat) (r : Regexp)

/-- A matcher thread: the position reached, the input that is left from that
position on, and the capture groups closed so far (group, start, end), most
recent first. -/
structure Thread where
  pos : Nat
  rest : List Char
  caps : List (Nat × Nat × Nat)
deriving DecidableEq

/-- Membership of a rune in a character class given by its ranges. -/
def inClass (ranges : List (Char × Char)) (c : Char) : Bool :=
  ranges.any fun r => decide (r.1.toNat ≤ c.toNat) && decide (c.toNat ≤ r.2.toNat)

/-- Consume one rune satisfying `p`. -/
def stepRune (p : Char → Bool) (t : Thread) : List Thread :=
  match t.rest with
  | [] => []
  | c :: cs => if p c then [{ t with pos := t.pos + 1, rest := cs }] else []

/-- Greedy one-or-more repetition: after each iteration, first try to iterate
again, then fall back to stopping.  An iteration that consumed nothing is not
repeated.  `fuel` bounds the number of iterations. -/
def plusLoop (step : Thread → List Thread) : Nat → Thread → List Thread
  | 0, _ => []
  | fuel + 1, t =>
    (step t).flatMap fun t' =>
      (if t.pos < t'.pos then plusLoop step fuel t' else []) ++ [t']

/-- All the ways `r` matches at thread `t`, in the order of preference of a
backtracking search (leftmost-first semantics). -/
def run : Regexp → Thread → List Thread
  | .emptyMatch, t => [t]
  | .beginText, t => if t.pos = 0 then [t] else []
  | .endText, t => if t.rest.isEmpty then [t] else []
  | .lit c, t => stepRune (fun d => d == c) t
  | .charClass rs, t => stepRune (inClass rs) t
  | .cat r s, t => (run r t).flatMap (run s)
  | .alt r s, t => run r t ++ run s t
  | .plus r, t => plusLoop (run r) (t.rest.length + 1) t
  | .capture i r, t =>
    (run r t).map fun t' => { t' with caps := (i, t.pos, t'.pos) :: t'.caps }

/-- The literal string `s` as a regular expression. -/
def Regexp.str : List Char → Regexp
  | [] => .emptyMatch
  | [c] => .lit c
  | c :: cs => .cat (.lit c) (Regexp.str cs)

/-- A match: its bounds `a0`, `a1` and the capture groups. -/
structure Match where
  a0 : Nat
  a1 : Nat
  caps : List (Nat × Nat × Nat)
deriving DecidableEq

/-- The preferred match of `re` that starts exactly at `start`. -/
def execAt (re : Regexp) (src : List Char) (start : Nat) : Option Match :=
  (run re { pos := start, rest := src.drop start, caps := [] }).head?.map
    fun t => { a0 := start, a1 := t.pos, caps := t.caps }

/-- Try the start positions `start`, `start + 1`, ... (`n` of them) in turn. -/
def search (re : Regexp) (src : List Char) : Nat → Nat → Option Match
  | 0, _ => none
  | n + 1, start =>
    match execAt re src start with
    | some m => some m
    | none => search re src n (start + 1)

/-- The leftmost match of `re` in `src` starting at or after `pos`
(`Regexp.doExecute`). -/
def doExecute (re : Regexp) (src : List Char) (pos : Nat) : Option Match :=
  search re src (src.length + 1 - pos) pos

/-- The Go slice expression `s[a:b]`. -/
def slice (s : List Char) (a b : Nat) : List Char :=
  (s.drop a).take (b - a)

/-- Bounds of capture group `i`, if the group took part in the match. -/
def capOf (caps : List (Nat × Nat × Nat)) (i : Nat) : Option (Nat × Nat) :=
  (caps.find? fun c => c.1 == i).map fun c => c.2

/-- Text of capture group `i` (the empty string for a group that did not take
part). -/
def groupText (src : List Char) (m : Match) (i : Nat) : List Char :=
  match capOf m.caps i with
  | some (a, b) => slice src a b
  | none => []

/-- `Regexp.FindStringSubmatch` for a pattern with `ngroups` groups: the text
of the leftmost match and of its groups, or `none` (Go: `nil`). -/
def FindStringSubmatch (re : Regexp) (ngroups : Nat) (s : List Char) :
    Option (List (List Char)) :=
  (doExecute re s 0).map fun m =>
    slice s m.a0 m.a1 :: (List.range ngroups).map fun i => groupText s m (i + 1)

/-- The loop of `Regexp.replaceAll`, specialised as `ReplaceAllFunc` does: the
callback receives the matched text and its result is appended.  `none` means
that the callback failed (a Go run-time fault), or that the iteration bound
`fuel` was exhausted. -/
def replaceAllLoop (re : Regexp) (src : List Char)
    (repl : List Char → Option (List Char)) :
    Nat → Nat → Nat → List Char → Option (List Char)
  | 0, _, _, _ => none
  | fuel + 1, lastMatchEnd, searchPos, buf =>
    if searchPos ≤ src.length then
      match doExecute re src searchPos with
      | none => some (buf ++ src.drop lastMatchEnd)
      | some a =>
        let buf1 := buf ++ slice src lastMatchEnd a.a0
        let width := if searchPos < src.length then 1 else 0
        let searchPos1 :=
          if searchPos + width > a.a1 then searchPos + width
          else if searchPos + 1 > a.a1 then searchPos + 1
          else a.a1
        if a.a1 > lastMatchEnd ∨ a.a0 = 0 then
          match repl (slice src a.a0 a.a1) with
          | none => none
          | some out => replaceAllLoop re src repl fuel a.a1 searchPos1 (buf1 ++ out)
        else replaceAllLoop re src repl fuel a.a1 searchPos1 buf1
    else some (buf ++ src.drop lastMatchEnd)

/-- `Regexp.ReplaceAllFunc`.  The search position grows in every iteration
and the loop stops once it passes the end, so `src.length + 2` iterations are
enough. -/
def ReplaceAllFunc (re : Regexp) (src : List Char)
    (repl : List Char → Option (List Char)) : Option (List Char) :=
  replaceAllLoop re src repl (src.length + 2) 0 0 []

/-! ## The program -/

/-- The class `[a-zA-Z0-9]`. -/
def alnumRanges : List (Char × Char) := [('a', 'z'), ('A', 'Z'), ('0', '9')]

/-- `validPath = regexp.MustCompile("^/(edit|save|view)/([a-zA-Z0-9]+)$")`. -/
def validPath : Regexp :=
  .cat .beginText
    (.cat (.lit '/')
      (.cat (.capture 1 (.alt (.str "edit".toList) (.alt (.str "save".toList) (.str "view".toList))))
        (.cat (.lit '/')
          (.cat (.capture 2 (.plus (.charClass alnumRanges))) .endText))))

/-- `wikiLink = regexp.MustCompile("\\[([a-zA-Z0-9]+)\\]")`. -/
def wikiLink : Regexp :=
  .cat (.lit '[') (.cat (.capture 1 (.plus (.charClass alnumRanges))) (.lit ']'))

/-- `fmt.Sprintf` for a format whose only verbs are `%s`, applied to string
arguments: every `%s` is replaced by the next argument, everything else is
copied. -/
def Sprintf : List Char → List (List Char) → List Char
  | [], _ => []
  | '%' :: 's' :: fmt, a :: args => a ++ Sprintf fmt args
  | '%' :: 's' :: fmt, [] => "%!s(MISSING)".toList ++ Sprintf fmt []
  | c :: fmt, args => c :: Sprintf fmt args

/-- The closure `replacer` of `setLink`.  Both index expressions are checked:
`s[len(s)-1]` and `s[0]` fault on an empty slice. -/
def replacer (s : List Char) : Option (List Char) :=
  if s.length = 0 then none
  else
    let s1 := s.take (s.length - 1)
    if s1.length = 0 then none
    else
      let s2 := s1.drop 1
      let link := Sprintf "<a href=\"/view/%s\">%s</a>".toList [s2, s2]
      some link

/-- `setLink`: `wikiLink.ReplaceAllFunc(body, replacer)`. -/
def setLink (body : List Char) : Option (List Char) :=
  ReplaceAllFunc wikiLink body replacer

/-- The type `Page`. -/
structure Page where
  Title : List Char
  Body : List Char
  IsFront : Bool
deriving DecidableEq

/-- `NewPage`: `&Page{Title: title}`. -/
def NewPage (title : List Char) : Page :=
  { Title := title, Body := [], IsFront := false }

/-- `NewPageWithBody`: `&Page{Title: title, Body: body}`. -/
def NewPageWithBody (title : List Char) (body : List Char) : Page :=
  { Title := title, Body := body, IsFront := false }

/-- The storage state: the contents of every file that exists, by name, and
for the names that cannot be written the error that writing reports. -/
structure Storage where
  files : List Char → Option (List Char)
  unwritable : List Char → Option (List Char)

/-- `ioutil.WriteFile(filename, data, 0600)`: creates or fully overwrites the
file; the result is the new state or the error's message. -/
def WriteFile (st : Storage) (filename data : List Char) : Except (List Char) Storage :=
  match st.unwritable filename with
  | some msg => .error msg
  | none => .ok { st with files := fun n => if n = filename then some data else st.files n }

/-- `ioutil.ReadFile(filename)`. -/
def ReadFile (st : Storage) (filename : List Char) : Except (List Char) (List Char) :=
  match st.files filename with
  | some data => .ok data
  | none => .error ("open ".toList ++ filename ++ ": no such file or directory".toList)

/-- The file that stores the page `title`. -/
def pageFile (title : List Char) : List Char :=
  "data/".toList ++ title ++ ".txt".toList

/-- `(p *Page) save()`. -/
def Page.save (st : Storage) (p : Page) : Except (List Char) Storage :=
  let filename := "data/".toList ++ p.Title ++ ".txt".toList
  WriteFile st filename p.Body

/-- `loadPage`. -/
def loadPage (st : Storage) (title : List Char) : Except (List Char) Page :=
  let filename := "data/".toList ++ title ++ ".txt".toList
  match ReadFile st filename with
  | .error err => .error err
  | .ok body => .ok (NewPageWithBody title body)

/-- What the program takes from its libraries and from the disk at start-up:
`unicode.ToLower` on the runes outside ASCII, the parsed template set and the
`cleanPath` function of `net/http`.  `executeTemplate name p` is `none` when
`ExecuteTemplate` returns no error; otherwise it tells whether output had
already been written to the response when the execution failed, and gives the
message of the error. -/
structure Env where
  unicodeToLower : Char → Char
  executeTemplate : List Char → Page → Option (Bool × List Char)
  cleanPath : List Char → List Char

/-- The ASCII branch of `unicode.ToLower`: `if 'A' <= r && r <= 'Z' { r += 'a' - 'A' }`. -/
def asciiToLower (c : Char) : Char :=
  if 'A'.toNat ≤ c.toNat ∧ c.toNat ≤ 'Z'.toNat then Char.ofNat (c.toNat + 32) else c

/-- `unicode.ToLower` on one rune: the ASCII case is the library's own code,
the rest is the table of the environment. -/
def runeToLower (env : Env) (c : Char) : Char :=
  if c.toNat < 128 then asciiToLower c else env.unicodeToLower c

/-- `strings.ToLower`. -/
def ToLower (env : Env) (s : List Char) : List Char :=
  s.map (runeToLower env)

/-- What a handler does to its `http.ResponseWriter`. -/
inductive Response where
  | notFound
  | redirect (url : List Char) (code : Nat)
  | error (msg : List Char) (code : Nat)
  | rendered (name : List Char) (p : Page) (failure : Option (Bool × List Char))
deriving DecidableEq

/-- The status code of a response.  `rendered name p none` is a template
executed with success.  `rendered name p (some (written, msg))` is an execution
that failed, followed by `http.Error(w, msg, http.StatusInternalServerError)`:
if output had been written before the failure, the status 200 went out with it
and the later call cannot change it; if not, the status is 500. -/
def Response.statusCode : Response → Nat
  | .notFound => 404
  | .redirect _ code => code
  | .error _ code => code
  | .rendered _ _ none => 200
  | .rendered _ _ (some (true, _)) => 200
  | .rendered _ _ (some (false, _)) => 500

/-- The part of `http.Request` the program reads. -/
structure Request where
  Path : List Char
  Form : List Char → List (List Char)

/-- `(r *Request) FormValue(key)`: the first value of the field, or the
empty string. -/
def Request.FormValue (r : Request) (key : List Char) : List Char :=
  match r.Form key with
  | v :: _ => v
  | [] => []

/-- `renderTemplate`: the response, and the page as the call leaves it. -/
def renderTemplate (env : Env) (tmpl : List Char) (p : Page) : Response × Page :=
  let p1 : Page :=
    if ToLower env p.Title = "frontpage".toList ∨ p.Title = [] then { p with IsFront := true }
    else p
  (.rendered (tmpl ++ ".html".toList) p1 (env.executeTemplate (tmpl ++ ".html".toList) p1), p1)

/-- The type of the handlers that `makeHandler` wraps. -/
abbrev TitleHandler := Storage → Request → List Char → Response × Storage

/-- The type of the handlers registered in the route table. -/
abbrev Handler := Storage → Request → Response × Storage

/-- `viewHandler`. -/
def viewHandler (env : Env) : TitleHandler := fun st _r title =>
  match loadPage st title with
  | .error _ => (.redirect ("/edit/".toList ++ title) 302, st)
  | .ok p => ((renderTemplate env "view".toList p).1, st)

/-- `editHandler`. -/
def editHandler (env : Env) : TitleHandler := fun st _r title =>
  let p := match loadPage st title with
    | .error _ => NewPage title
    | .ok p => p
  ((renderTemplate env "edit".toList p).1, st)

/-- `saveHandler`. -/
def saveHandler (_env : Env) : TitleHandler := fun st r title =>
  let body := r.FormValue "body".toList
  let p := NewPageWithBody title body
  match p.save st with
  | .error err => (.error err 500, st)
  | .ok st1 => (.redirect ("/view/".toList ++ title) 302, st1)

/-- `makeHandler`. -/
def makeHandler (fn : TitleHandler) : Handler := fun st r =>
  match FindStringSubmatch validPath 2 r.Path with
  | none => (.notFound, st)
  | some m => fn st r (m.getD 2 [])

/-- `frontPageHandler`. -/
def frontPageHandler (env : Env) : Handler := fun st _r =>
  let title := "FrontPage".toList
  match loadPage st title with
  | .error _ => ((renderTemplate env "edit".toList (NewPage title)).1, st)
  | .ok p => ((renderTemplate env "view".toList p).1, st)

/-! ## The route table (`http.ServeMux`) -/

/-- A `ServeMux`: every registered pattern (`m`), and the patterns that end
in a slash, longest first (`es`). -/
structure ServeMux where
  m : List (List Char × Handler)
  es : List (List Char × Handler)

/-- `appendSorted`: insert before the first entry with a shorter pattern. -/
def appendSorted (es : List (List Char × Handler)) (e : List Char × Handler) :
    List (List Char × Handler) :=
  match es with
  | [] => [e]
  | x :: xs => if x.1.length < e.1.length then e :: x :: xs else x :: appendSorted xs e

/-- `http.HandleFunc(pattern, handler)`. -/
def ServeMux.HandleFunc (mux : ServeMux) (pattern : List Char) (h : Handler) : ServeMux :=
  { m := mux.m ++ [(pattern, h)],
    es := if pattern.getLast? = some '/' then appendSorted mux.es (pattern, h) else mux.es }

/-- `(mux *ServeMux) match(path)`: an exact match first, then the longest
registered pattern ending in a slash that `path` begins with. -/
def ServeMux.match (mux : ServeMux) (path : List Char) : Option Handler :=
  match mux.m.find? fun e => e.1 == path with
  | some e => some e.2
  | none => (mux.es.find? fun e => e.1.isPrefixOf path).map fun e => e.2

/-- `shouldRedirectRLocked` (host-specific patterns are not used by the
program). -/
def ServeMux.shouldRedirect (mux : ServeMux) (path : List Char) : Bool :=
  if mux.m.any fun e => e.1 == path then false
  else if path.length = 0 then false
  else if mux.m.any fun e => e.1 == path ++ ['/'] then path.getLast? != some '/'
  else false

/-- `(mux *ServeMux) ServeHTTP` for a request other than `CONNECT`: the
redirect to the pattern with a trailing slash, the redirect to the cleaned
path, and the dispatch to the matching handler (`NotFoundHandler` if there is
none). -/
def ServeMux.ServeHTTP (env : Env) (mux : ServeMux) : Handler := fun st r =>
  let path := env.cleanPath r.Path
  if mux.shouldRedirect path then (.redirect (path ++ ['/']) 301, st)
  else if path ≠ r.Path then (.redirect path 301, st)
  else
    match mux.match r.Path with
    | some h => h st r
    | none => (.notFound, st)

/-- The route table that `main` registers. -/
def mainMux (env : Env) : ServeMux :=
  ((((ServeMux.mk [] []).HandleFunc "/".toList (frontPageHandler env)).HandleFunc
    "/view/".toList (makeHandler (viewHandler env))).HandleFunc
    "/edit/".toList (makeHandler (editHandler env))).HandleFunc
    "/save/".toList (makeHandler (saveHandler env))

/-- The server: `http.ListenAndServe` with the default route table. -/
def serve (env : Env) : Handler :=
  ServeMux.ServeHTTP env (mainMux env)

/-! ## Reference definitions, following the specification -/

/-- A letter or digit of ASCII. -/
def isAlnum (c : Char) : Bool :=
  ('a'.toNat ≤ c.toNat && c.toNat ≤ 'z'.toNat) || ('A'.toNat ≤ c.toNat && c.toNat ≤ 'Z'.toNat)
    || ('0'.toNat ≤ c.toNat && c.toNat ≤ '9'.toNat)

/-- A word: one or more letters and digits of ASCII. -/
def IsWord (w : List Char) : Prop :=
  w ≠ [] ∧ ∀ c ∈ w, isAlnum c = true

instance (w : List Char) : Decidable (IsWord w) :=
  inferInstanceAs (Decidable (w ≠ [] ∧ ∀ c ∈ w, isAlnum c = true))

/-- The wiki link at the head of `s`, if there is one: `s` is `[w]` followed
by `r`, for a word `w`; the result is `(w, r)`. -/
def linkAt (s : List Char) : Option (List Char × List Char) :=
  match s with
  | '[' :: t =>
    match t.dropWhile isAlnum with
    | ']' :: r => if t.takeWhile isAlnum = [] then none else some (t.takeWhile isAlnum, r)
    | _ => none
  | _ => none

/-- The anchor element that the specification asks for the word `w`: its link
target is `/view/w` and its visible text is `w`. -/
def anchor (w : List Char) : List Char :=
  "<a href=".toList ++ [Char.ofNat 34] ++ "/view/".toList ++ w ++ [Char.ofNat 34, '>'] ++ w
    ++ "</a>".toList

/-- The reference rewriting with an explicit bound on the number of steps. -/
def refRewriteAux : Nat → List Char → List Char
  | 0, _ => []
  | _ + 1, [] => []
  | n + 1, c :: cs =>
    match linkAt (c :: cs) with
    | some (w, r) => anchor w ++ refRewriteAux n r
    | none => c :: refRewriteAux n cs

/-- The reference rewriting of a body: scanning from the left, a wiki link at
the current position is replaced by its anchor and the scan goes on behind
it; any other rune is copied. -/
def refRewrite (b : List Char) : List Char :=
  refRewriteAux b.length b

/-- The three operations of the router. -/
def operations : List (List Char) :=
  ["view".toList, "edit".toList, "save".toList]

/-- Equality of two strings up to the case of ASCII letters, position by
position. -/
def EqIgnoreCase (s t : List Char) : Prop :=
  List.Forall₂ (fun a b => a = b ∨ a = b.toLower ∨ a = b.toUpper) s t

/-- The three route patterns that `main` registers with `makeHandler`. -/
def titleRoutes : List (List Char) :=
  ["/view/".toList, "/edit/".toList, "/save/".toList]

/-! ## Auxiliary definitions for the proofs -/

/-- Advance a thread by `k` runes. -/
def Thread.adv (t : Thread) (k : Nat) : Thread :=
  { t with pos := t.pos + k, rest := t.rest.drop k }

/-- The part of `validPath` behind the operation: a slash, a word, the end. -/
def titlePart : Regexp :=
  .cat (.lit '/') (.cat (.capture 2 (.plus (.charClass alnumRanges))) .endText)

/-- A sample environment: templates that always execute, paths that are
already clean, and a lower-casing table that leaves the runes outside ASCII
alone. -/
def sampleEnv : Env :=
  { unicodeToLower := fun c => c,
    executeTemplate := fun _ _ => none,
    cleanPath := fun p => p }

/-- A sample storage state: no file, every name writable. -/
def emptyStorage : Storage :=
  { files := fun _ => none, unwritable := fun _ => none }

/-- A sample storage state in which nothing can be written. -/
def readOnlyStorage : Storage :=
  { files := fun _ => none, unwritable := fun _ => some "permission denied".toList }

/-- A sample storage state: the page `Test` exists with the body `old`. -/
def oldTestStorage : Storage :=
  { files := fun n => if n = "data/Test.txt".toList then some "old".toList else none,
    unwritable := fun _ => none }

/-- The state `oldTestStorage` after the page `Test` was saved with an empty
body. -/
def newTestStorage : Storage :=
  { files := fun n =>
      if n = "data/".toList ++ "Test".toList ++ ".txt".toList then some []
      else oldTestStorage.files n,
    unwritable := oldTestStorage.unwritable }

/-- A sample request: the given path and a form with the single field `body`. -/
def sampleRequest (path body : List Char) : Request :=
  { Path := path, Form := fun k => if k = "body".toList then [body] else [] }

/-! ## The matcher on the two patterns -/

theorem inClass_alnumRanges : inClass alnumRanges = isAlnum := by
  funext c
  simp [inClass, alnumRanges, isAlnum, Bool.or_assoc]

theorem isAlnum_lbracket : isAlnum '[' = false := by decide

theorem isAlnum_rbracket : isAlnum ']' = false := by decide

/-- A greedy run of letters and digits followed by a continuation `h` that
fails whenever a letter or digit comes next: only the longest run survives. -/
theorem plusLoop_alnum_flatMap (h : Thread → List Thread)
    (hh : ∀ t : Thread, ∀ c cs, t.rest = c :: cs → isAlnum c = true → h t = []) :
    ∀ (fuel : Nat) (t : Thread), t.rest.length < fuel →
      (plusLoop (stepRune isAlnum) fuel t).flatMap h =
        if t.rest.takeWhile isAlnum = [] then []
        else h (t.adv (t.rest.takeWhile isAlnum).length) := by
  intro fuel
  induction fuel with
  | zero => intro t ht; omega
  | succ n ih =>
    intro t ht
    obtain ⟨pos, rest, caps⟩ := t
    cases rest with
    | nil => simp [plusLoop, stepRune]
    | cons c cs =>
      by_cases hc : isAlnum c = true
      · have hlen : cs.length < n := by simpa using ht
        have ih1 := ih { pos := pos + 1, rest := cs, caps := caps } hlen
        simp only [plusLoop, stepRune, hc, if_true, List.flatMap_cons, List.flatMap_nil,
          List.append_nil, Nat.lt_succ_self, List.flatMap_append, ih1]
        by_cases hcs : cs.takeWhile isAlnum = []
        · simp [hcs, List.takeWhile_cons, hc, Thread.adv]
        · have hne : ∃ d ds, cs = d :: ds ∧ isAlnum d = true := by
            cases cs with
            | nil => simp at hcs
            | cons d ds =>
              refine ⟨d, ds, rfl, ?_⟩
              by_contra hd
              simp [List.takeWhile_cons, hd] at hcs
          obtain ⟨d, ds, hds, hd⟩ := hne
          have h0 : h { pos := pos + 1, rest := cs, caps := caps } = [] :=
            hh _ d ds hds hd
          simp [hcs, List.takeWhile_cons, hc, Thread.adv, h0, Nat.add_assoc, Nat.add_comm 1]
      · simp [plusLoop, stepRune, hc, List.takeWhile_cons]

theorem drop_length_takeWhile (p : Char → Bool) (l : List Char) :
    l.drop (l.takeWhile p).length = l.dropWhile p := by
  induction l with
  | nil => rfl
  | cons c cs ih =>
    by_cases hc : p c = true
    · simp [List.takeWhile_cons, List.dropWhile_cons, hc, ih]
    · simp [List.takeWhile_cons, List.dropWhile_cons, hc]

theorem linkAt_cons_ne (c : Char) (cs : List Char) (hc : c ≠ '[') : linkAt (c :: cs) = none := by
  unfold linkAt
  split
  · rename_i heq
    simp at heq
    exact absurd heq.1 hc
  · rfl

theorem linkAt_nil : linkAt [] = none := rfl

theorem linkAt_bracket_nil (cs : List Char) (h : cs.dropWhile isAlnum = []) :
    linkAt ('[' :: cs) = none := by
  simp [linkAt, h]

theorem linkAt_bracket_ne (cs : List Char) (d : Char) (ds : List Char)
    (h : cs.dropWhile isAlnum = d :: ds) (hd : d ≠ ']') : linkAt ('[' :: cs) = none := by
  simp only [linkAt, h]
  split
  · rename_i heq
    simp at heq
    exact absurd heq.1 hd
  · rfl

theorem linkAt_bracket_close (cs ds : List Char) (h : cs.dropWhile isAlnum = ']' :: ds) :
    linkAt ('[' :: cs) =
      if cs.takeWhile isAlnum = [] then none else some (cs.takeWhile isAlnum, ds) := by
  simp [linkAt, h]

theorem stepRune_nil (p : Char → Bool) (pos : Nat) (caps : List (Nat × Nat × Nat)) :
    stepRune p { pos := pos, rest := [], caps := caps } = [] := rfl

theorem stepRune_cons (p : Char → Bool) (pos : Nat) (c : Char) (cs : List Char)
    (caps : List (Nat × Nat × Nat)) :
    stepRune p { pos := pos, rest := c :: cs, caps := caps } =
      if p c then [{ pos := pos + 1, rest := cs, caps := caps }] else [] := rfl

/-- The matcher on `wikiLink` agrees with `linkAt`. -/
theorem run_wikiLink (t : Thread) :
    run wikiLink t =
      match linkAt t.rest with
      | some (w, r) =>
        [{ pos := t.pos + 1 + w.length + 1, rest := r,
           caps := (1, t.pos + 1, t.pos + 1 + w.length) :: t.caps }]
      | none => [] := by
  obtain ⟨pos, rest, caps⟩ := t
  cases rest with
  | nil => simp [wikiLink, run, stepRune, linkAt_nil]
  | cons c cs =>
    by_cases hc : c = '['
    · subst hc
      have key := plusLoop_alnum_flatMap
        (fun t' => run (.lit ']')
          { t' with caps := (1, pos + 1, t'.pos) :: t'.caps })
        (by
          intro t' d ds hd hal
          have : d ≠ ']' := by
            rintro rfl
            simp [isAlnum_rbracket] at hal
          simp [run, stepRune, hd, this])
        (cs.length + 1) { pos := pos + 1, rest := cs, caps := caps } (by simp)
      simp only [wikiLink, run, stepRune_cons, beq_self_eq_true, if_true, List.flatMap_cons,
        List.flatMap_nil, List.append_nil, inClass_alnumRanges, List.flatMap_map]
      simp only [run] at key
      rw [key]
      simp only [Thread.adv, drop_length_takeWhile]
      cases hdw : cs.dropWhile isAlnum with
      | nil => simp [stepRune_nil, linkAt_bracket_nil cs hdw]
      | cons d ds =>
        by_cases hd : d = ']'
        · subst hd
          rw [linkAt_bracket_close cs ds hdw]
          by_cases htw : cs.takeWhile isAlnum = []
          · simp [htw]
          · simp [htw, stepRune_cons]
        · rw [linkAt_bracket_ne cs d ds hdw hd]
          by_cases htw : cs.takeWhile isAlnum = []
          · simp [htw]
          · simp [htw, stepRune_cons, hd]
    · simp [wikiLink, run, stepRune_cons, hc, linkAt_cons_ne c cs hc]

/-! ## The reference rewriting -/

/-- Characterisation of `linkAt`: the head of `s` is a bracketed word. -/
theorem linkAt_eq_some_iff (s w r : List Char) :
    linkAt s = some (w, r) ↔ IsWord w ∧ s = '[' :: (w ++ ']' :: r) := by
  constructor
  · intro h
    cases s with
    | nil => simp [linkAt_nil] at h
    | cons c cs =>
      by_cases hc : c = '['
      · subst hc
        cases hdw : cs.dropWhile isAlnum with
        | nil => simp [linkAt_bracket_nil cs hdw] at h
        | cons d ds =>
          by_cases hd : d = ']'
          · subst hd
            rw [linkAt_bracket_close cs ds hdw] at h
            by_cases htw : cs.takeWhile isAlnum = []
            · simp [htw] at h
            · simp only [htw, if_false, Option.some.injEq, Prod.mk.injEq] at h
              obtain ⟨hw, hr⟩ := h
              subst hw; subst hr
              refine ⟨⟨htw, fun c hc => List.mem_takeWhile_imp hc⟩, ?_⟩
              rw [← hdw, List.takeWhile_append_dropWhile]
          · simp [linkAt_bracket_ne cs d ds hdw hd] at h
      · simp [linkAt_cons_ne c cs hc] at h
  · rintro ⟨⟨hne, hal⟩, rfl⟩
    have hdw : (w ++ ']' :: r).dropWhile isAlnum = ']' :: r := by
      rw [List.dropWhile_append_of_pos hal]
      simp [List.dropWhile_cons, isAlnum_rbracket]
    have htw : (w ++ ']' :: r).takeWhile isAlnum = w := by
      rw [List.takeWhile_append_of_pos hal]
      simp [List.takeWhile_cons, isAlnum_rbracket]
    rw [linkAt_bracket_close _ r hdw, htw]
    simp [hne]

theorem linkAt_length (s w r : List Char) (h : linkAt s = some (w, r)) :
    s.length = w.length + r.length + 2 := by
  obtain ⟨_, rfl⟩ := (linkAt_eq_some_iff s w r).1 h
  simp
  omega

theorem refRewriteAux_fuel : ∀ (n m : Nat) (s : List Char), s.length ≤ n → s.length ≤ m →
    refRewriteAux n s = refRewriteAux m s := by
  intro n
  induction n with
  | zero =>
    intro m s hn hm
    have : s = [] := List.length_eq_zero.1 (Nat.le_zero.1 hn)
    subst this
    cases m <;> rfl
  | succ n ih =>
    intro m s hn hm
    cases s with
    | nil => cases m <;> rfl
    | cons c cs =>
      cases m with
      | zero => simp at hm
      | succ m =>
        simp only [refRewriteAux]
        cases hl : linkAt (c :: cs) with
        | none =>
          simp only
          rw [ih m cs (by simpa using hn) (by simpa using hm)]
        | some wr =>
          obtain ⟨w, r⟩ := wr
          have hlen := linkAt_length _ _ _ hl
          simp only [List.length_cons] at hlen hn hm
          simp only
          rw [ih m r (by omega) (by omega)]

theorem refRewrite_nil : refRewrite [] = [] := rfl

theorem refRewrite_link (s w r : List Char) (h : linkAt s = some (w, r)) :
    refRewrite s = anchor w ++ refRewrite r := by
  have hlen := linkAt_length _ _ _ h
  cases s with
  | nil => simp [linkAt_nil] at h
  | cons c cs =>
    simp only [refRewrite, List.length_cons, refRewriteAux, h]
    simp only [List.length_cons] at hlen
    rw [refRewriteAux_fuel cs.length r.length r (by omega) (le_refl _)]

theorem refRewrite_copy (c : Char) (cs : List Char) (h : linkAt (c :: cs) = none) :
    refRewrite (c :: cs) = c :: refRewrite cs := by
  simp only [refRewrite, List.length_cons, refRewriteAux, h]

/-! ## `setLink` refines the reference rewriting -/

theorem execAt_wikiLink (src : List Char) (start : Nat) :
    execAt wikiLink src start =
      match linkAt (src.drop start) with
      | some (w, _) =>
        some { a0 := start, a1 := start + 1 + w.length + 1,
               caps := [(1, start + 1, start + 1 + w.length)] }
      | none => none := by
  simp only [execAt, run_wikiLink]
  cases linkAt (src.drop start) with
  | none => rfl
  | some wr => rfl

/-- What the leftmost search for `wikiLink` finds from `start` on: nothing,
and then the reference rewriting copies the rest; or the first bracketed word
`[w]`, after a stretch `u` that the reference rewriting copies. -/
theorem search_wikiLink (src : List Char) : ∀ (n start : Nat), start + n = src.length + 1 →
    match search wikiLink src n start with
    | none => refRewrite (src.drop start) = src.drop start
    | some m => ∃ u w r, IsWord w ∧ src.drop start = u ++ '[' :: (w ++ ']' :: r) ∧
        m.a0 = start + u.length ∧ m.a1 = m.a0 + w.length + 2 ∧
        refRewrite (src.drop start) = u ++ anchor w ++ refRewrite r := by
  intro n
  induction n with
  | zero =>
    intro start h
    simp only [search]
    rw [List.drop_eq_nil_of_le (by omega)]
    rfl
  | succ n ih =>
    intro start h
    simp only [search, execAt_wikiLink]
    cases hl : linkAt (src.drop start) with
    | some wr =>
      obtain ⟨w, r⟩ := wr
      obtain ⟨hw, hs⟩ := (linkAt_eq_some_iff _ _ _).1 hl
      refine ⟨[], w, r, hw, by simpa using hs, by simp, by simp; omega, ?_⟩
      simpa using refRewrite_link _ _ _ hl
    | none =>
      simp only
      have ih1 := ih (start + 1) (by omega)
      by_cases hlt : start < src.length
      · have hd : src.drop start = src[start] :: src.drop (start + 1) :=
          List.drop_eq_getElem_cons hlt
        rw [hd] at hl
        cases hs : search wikiLink src n (start + 1) with
        | none =>
          rw [hs] at ih1
          simp only at ih1 ⊢
          rw [hd, refRewrite_copy _ _ hl, ih1]
        | some m =>
          rw [hs] at ih1
          simp only at ih1 ⊢
          obtain ⟨u, w, r, hw, hsrc, h0, h1, href⟩ := ih1
          refine ⟨src[start] :: u, w, r, hw, ?_, ?_, h1, ?_⟩
          · rw [hd, hsrc]; rfl
          · simp only [List.length_cons]; omega
          · rw [hd, refRewrite_copy _ _ hl, href]; rfl
      · have hn : n = 0 := by omega
        subst hn
        simp only [search]
        rw [List.drop_eq_nil_of_le (by omega)]
        rfl

theorem slice_of_drop_eq (src u v : List Char) (a : Nat) (h : src.drop a = u ++ v) :
    slice src a (a + u.length) = u := by
  simp [slice, h]

/-- The format of `replacer` applied to a word is the anchor of the
specification. -/
theorem Sprintf_link (w : List Char) :
    Sprintf "<a href=\"/view/%s\">%s</a>".toList [w, w] = anchor w := by
  simp [Sprintf, anchor]

theorem replacer_token (w : List Char) :
    replacer ('[' :: (w ++ [']'])) = some (anchor w) ∧
      (('[' :: (w ++ [']'])).take (('[' :: (w ++ [']'])).length - 1)).drop 1 = w := by
  have h1 : (('[' :: (w ++ [']'])).take (('[' :: (w ++ [']'])).length - 1)).drop 1 = w := by
    simp
  refine ⟨?_, h1⟩
  have h2 : ¬ ('[' :: (w ++ [']'])).length = 0 := by simp
  have h3 : ¬ (('[' :: (w ++ [']'])).take (('[' :: (w ++ [']'])).length - 1)).length = 0 := by
    simp
  simp only [replacer, h2, h3, if_false, h1, Sprintf_link]

/-- The loop of `ReplaceAllFunc` with `wikiLink` and a callback that maps every
bracketed word to its anchor, started at a position where the last match
ended, appends the reference rewriting of the rest of the input.  What the
callback does on other arguments plays no part: it is applied to bracketed
words only. -/
theorem replaceAllLoop_wikiLink (src : List Char) (f : List Char → Option (List Char))
    (hf : ∀ w, IsWord w → f ('[' :: (w ++ [']'])) = some (anchor w)) :
    ∀ (fuel pos : Nat) (buf : List Char),
    pos ≤ src.length → src.length + 2 ≤ fuel + pos →
    replaceAllLoop wikiLink src f fuel pos pos buf =
      some (buf ++ refRewrite (src.drop pos)) := by
  intro fuel
  induction fuel with
  | zero => intro pos buf h1 h2; omega
  | succ fuel ih =>
    intro pos buf h1 h2
    have hs := search_wikiLink src (src.length + 1 - pos) pos (by omega)
    simp only [replaceAllLoop, h1, if_true, doExecute]
    cases hm : search wikiLink src (src.length + 1 - pos) pos with
    | none =>
      rw [hm] at hs
      simp only at hs ⊢
      rw [hs]
    | some m =>
      rw [hm] at hs
      simp only at hs ⊢
      obtain ⟨u, w, r, hw, hsrc, h0, ha1, href⟩ := hs
      have hlen : (src.drop pos).length = u.length + w.length + r.length + 2 := by
        rw [hsrc]; simp; omega
      rw [List.length_drop] at hlen
      have hwpos : 0 < w.length := List.length_pos.2 hw.1
      have hu : slice src pos m.a0 = u := by
        rw [h0]; exact slice_of_drop_eq src u _ pos hsrc
      have hd0 : src.drop m.a0 = ('[' :: (w ++ [']'])) ++ r := by
        rw [h0, ← List.drop_drop, hsrc, List.drop_left]; simp
      have htok : slice src m.a0 m.a1 = '[' :: (w ++ [']']) := by
        have := slice_of_drop_eq src ('[' :: (w ++ [']'])) r m.a0 hd0
        rw [← this, ha1]; simp [Nat.add_assoc]
      have hd1 : src.drop m.a1 = r := by
        have : m.a1 = m.a0 + ('[' :: (w ++ [']'])).length := by simp [ha1, Nat.add_assoc]
        rw [this, ← List.drop_drop, hd0, List.drop_left]
      have hrepl : f ('[' :: (w ++ [']'])) = some (anchor w) := hf w hw
      have hgt : m.a1 > pos := by omega
      have hw1 : ¬ (pos + (if pos < src.length then 1 else 0) > m.a1) := by
        split <;> omega
      have hw2 : ¬ (pos + 1 > m.a1) := by omega
      simp only [hgt, true_or, if_true, htok, hrepl, hw1, hw2, if_false, hu]
      rw [ih m.a1 _ (by omega) (by omega), hd1, href]
      simp [List.append_assoc]

theorem ReplaceAllFunc_wikiLink (b : List Char) (f : List Char → Option (List Char))
    (hf : ∀ w, IsWord w → f ('[' :: (w ++ [']'])) = some (anchor w)) :
    ReplaceAllFunc wikiLink b f = some (refRewrite b) := by
  have := replaceAllLoop_wikiLink b f hf (b.length + 2) 0 [] (Nat.zero_le _) (by omega)
  simpa [ReplaceAllFunc] using this

/-- The function `setLink` never fails and computes the reference rewriting. -/
theorem setLink_eq_refRewrite (b : List Char) : setLink b = some (refRewrite b) :=
  ReplaceAllFunc_wikiLink b replacer fun w _ => (replacer_token w).1

/-! ## The matcher on `validPath` -/

theorem Thread.adv_zero (t : Thread) : t.adv 0 = t := by
  cases t; simp [Thread.adv]

theorem run_str (s : List Char) : ∀ t : Thread,
    run (Regexp.str s) t = if s.isPrefixOf t.rest then [t.adv s.length] else [] := by
  induction s with
  | nil => intro t; simp [Regexp.str, run, Thread.adv_zero]
  | cons c cs ih =>
    intro t
    obtain ⟨pos, rest, caps⟩ := t
    cases cs with
    | nil =>
      cases rest with
      | nil => simp [Regexp.str, run, stepRune_nil]
      | cons d ds =>
        by_cases hd : d = c
        · subst hd; simp [Regexp.str, run, stepRune_cons, Thread.adv]
        · have hd2 : ¬ c = d := fun h => hd h.symm
          simp [Regexp.str, run, stepRune_cons, hd, hd2]
    | cons e es =>
      cases rest with
      | nil => simp [Regexp.str, run, stepRune_nil]
      | cons d ds =>
        by_cases hd : d = c
        · subst hd
          simp only [Regexp.str, run, stepRune_cons, beq_self_eq_true, if_true,
            List.flatMap_cons, List.flatMap_nil, List.append_nil, ih]
          simp [Thread.adv, Nat.add_assoc, Nat.add_comm 1]
        · have hd2 : ¬ c = d := fun h => hd h.symm
          simp [Regexp.str, run, stepRune_cons, hd, hd2]

theorem takeWhile_eq_self_of_dropWhile_nil (l : List Char) (h : l.dropWhile isAlnum = []) :
    l.takeWhile isAlnum = l := by
  have := List.takeWhile_append_dropWhile isAlnum l
  rw [h, List.append_nil] at this
  exact this

theorem run_titlePart (pos : Nat) (rest : List Char) (caps : List (Nat × Nat × Nat)) :
    run titlePart { pos := pos, rest := rest, caps := caps } =
      match rest with
      | [] => []
      | c :: cs =>
        if c = '/' ∧ IsWord cs then
          [{ pos := pos + 1 + cs.length, rest := [],
             caps := (2, pos + 1, pos + 1 + cs.length) :: caps }]
        else [] := by
  cases rest with
  | nil => simp [titlePart, run, stepRune_nil]
  | cons c cs =>
    by_cases hc : c = '/'
    · subst hc
      have key := plusLoop_alnum_flatMap
        (fun t' => run .endText
          { t' with caps := (2, pos + 1, t'.pos) :: t'.caps })
        (by
          intro t' d ds hd _
          simp [run, hd])
        (cs.length + 1) { pos := pos + 1, rest := cs, caps := caps } (by simp)
      simp only [titlePart, run, stepRune_cons, beq_self_eq_true, if_true, List.flatMap_cons,
        List.flatMap_nil, List.append_nil, inClass_alnumRanges, List.flatMap_map]
      simp only [run] at key
      rw [key]
      simp only [Thread.adv, drop_length_takeWhile, true_and]
      by_cases hw : IsWord cs
      · have hdw : cs.dropWhile isAlnum = [] := by
          rw [List.dropWhile_eq_nil_iff]; exact hw.2
        have htw := takeWhile_eq_self_of_dropWhile_nil cs hdw
        simp [hw, hdw, htw, hw.1]
      · simp only [hw, if_false]
        by_cases htw : cs.takeWhile isAlnum = []
        · simp [htw]
        · simp only [htw, if_false]
          cases hdw : cs.dropWhile isAlnum with
          | nil =>
            exfalso
            apply hw
            have h1 := takeWhile_eq_self_of_dropWhile_nil cs hdw
            refine ⟨fun h => htw (by simp [h]), fun c hc => ?_⟩
            rw [← h1] at hc
            exact List.mem_takeWhile_imp hc
          | cons d ds => simp
    · simp [titlePart, run, stepRune_cons, hc]

theorem validPath_eq :
    validPath = .cat .beginText (.cat (.lit '/')
      (.cat (.capture 1 (.alt (.str "edit".toList) (.alt (.str "save".toList) (.str "view".toList))))
        titlePart)) := rfl

theorem run_cat (r s : Regexp) (t : Thread) : run (.cat r s) t = (run r t).flatMap (run s) := rfl

theorem run_alt (r s : Regexp) (t : Thread) : run (.alt r s) t = run r t ++ run s t := rfl

theorem run_capture (i : Nat) (r : Regexp) (t : Thread) :
    run (.capture i r) t =
      (run r t).map fun t' => { t' with caps := (i, t.pos, t'.pos) :: t'.caps } := rfl

theorem run_lit (c : Char) (t : Thread) : run (.lit c) t = stepRune (fun d => d == c) t := rfl

theorem run_beginText (t : Thread) : run .beginText t = if t.pos = 0 then [t] else [] := rfl

/-- On a well-formed path the matcher has exactly one thread. -/
theorem run_validPath_ok (op t : List Char) (hop : op ∈ operations) (ht : IsWord t) :
    run validPath { pos := 0, rest := '/' :: (op ++ '/' :: t), caps := [] } =
      [{ pos := 6 + t.length, rest := [], caps := [(2, 6, 6 + t.length), (1, 1, 5)] }] := by
  simp only [operations, List.mem_cons, List.mem_singleton, List.not_mem_nil, or_false] at hop
  rcases hop with rfl | rfl | rfl
  · simp [validPath_eq, run_cat, run_alt, run_capture, run_lit, run_beginText, stepRune_cons,
      run_str, run_titlePart, Thread.adv, ht]
  · simp [validPath_eq, run_cat, run_alt, run_capture, run_lit, run_beginText, stepRune_cons,
      run_str, run_titlePart, Thread.adv, ht]
  · simp [validPath_eq, run_cat, run_alt, run_capture, run_lit, run_beginText, stepRune_cons,
      run_str, run_titlePart, Thread.adv, ht]

/-- A thread of the matcher on `p` shows that `p` is well formed. -/
theorem run_validPath_shape (p : List Char) (t : Thread)
    (h : t ∈ run validPath { pos := 0, rest := p, caps := [] }) :
    ∃ op ∈ operations, ∃ w, IsWord w ∧ p = '/' :: (op ++ '/' :: w) := by
  cases p with
  | nil => simp [validPath_eq, run_cat, run_lit, run_beginText, stepRune_nil] at h
  | cons c p1 =>
    by_cases hc : c = '/'
    · subst hc
      simp only [validPath_eq, run_cat, run_alt, run_capture, run_lit, run_beginText,
        stepRune_cons, beq_self_eq_true, if_true, List.flatMap_cons,
        List.flatMap_nil, List.append_nil, List.flatMap_map, List.mem_flatMap, List.mem_append,
        run_str, Thread.adv] at h
      obtain ⟨t2, ht2, h⟩ := h
      have hpre : ∃ op ∈ operations, op.isPrefixOf p1 = true ∧
          t2 = { pos := 0 + 1 + 4, rest := p1.drop 4, caps := [] } := by
        rcases ht2 with ht2 | ht2 | ht2
        · refine ⟨"edit".toList, by decide, ?_⟩
          split at ht2
          · rename_i hp; exact ⟨hp, by simpa using ht2⟩
          · simp at ht2
        · refine ⟨"save".toList, by decide, ?_⟩
          split at ht2
          · rename_i hp; exact ⟨hp, by simpa using ht2⟩
          · simp at ht2
        · refine ⟨"view".toList, by decide, ?_⟩
          split at ht2
          · rename_i hp; exact ⟨hp, by simpa using ht2⟩
          · simp at ht2
      obtain ⟨op, hop, hp, rfl⟩ := hpre
      have hlen : op.length = 4 := by
        simp only [operations, List.mem_cons, List.mem_singleton, List.not_mem_nil,
          or_false] at hop
        rcases hop with rfl | rfl | rfl <;> rfl
      have hp1 : p1 = op ++ p1.drop 4 := by
        have := List.prefix_iff_eq_append.1 (List.isPrefixOf_iff_prefix.1 hp)
        rw [hlen] at this
        exact this.symm
      rw [run_titlePart] at h
      cases hd : p1.drop 4 with
      | nil => simp [hd] at h
      | cons d ds =>
        rw [hd] at h
        simp only at h
        split at h
        · rename_i hcond
          refine ⟨op, hop, ds, hcond.2, ?_⟩
          rw [hp1, hd, hcond.1]
        · simp at h
    · simp [validPath_eq, run_cat, run_lit, run_beginText, stepRune_cons, hc] at h

theorem search_validPath_pos (src : List Char) : ∀ (n start : Nat), 0 < start →
    search validPath src n start = none := by
  intro n
  induction n with
  | zero => intro start _; rfl
  | succ n ih =>
    intro start h
    have hne : ¬ start = 0 := by omega
    have he : execAt validPath src start = none := by
      simp [execAt, validPath_eq, run_cat, run_beginText, hne]
    simp only [search, he]
    exact ih (start + 1) (by omega)

theorem doExecute_validPath (p : List Char) :
    doExecute validPath p 0 = execAt validPath p 0 := by
  simp only [doExecute, Nat.sub_zero, search]
  cases execAt validPath p 0 with
  | some m => rfl
  | none => simp [search_validPath_pos p p.length 1 (by omega)]

theorem operations_length (op : List Char) (hop : op ∈ operations) : op.length = 4 := by
  simp only [operations, List.mem_cons, List.mem_singleton, List.not_mem_nil, or_false] at hop
  rcases hop with rfl | rfl | rfl <;> rfl

/-- The submatches of `validPath` on a well-formed path. -/
theorem FindStringSubmatch_validPath_ok (op t : List Char) (hop : op ∈ operations)
    (ht : IsWord t) :
    FindStringSubmatch validPath 2 ('/' :: (op ++ '/' :: t)) =
      some ['/' :: (op ++ '/' :: t), op, t] := by
  have hlen := operations_length op hop
  have h5 : (op ++ '/' :: t).drop 5 = t := by
    have : (op ++ '/' :: t).drop (op.length + 1) = t := by
      rw [List.drop_append]; rfl
    rwa [hlen] at this
  have h4 : (op ++ '/' :: t).take 4 = op := by
    have := List.take_left op ('/' :: t)
    rwa [hlen] at this
  simp only [FindStringSubmatch, doExecute_validPath, execAt, List.drop_zero,
    run_validPath_ok op t hop ht, List.head?_cons, Option.map_some']
  simp [slice, groupText, capOf, List.range, List.range.loop, hlen, h5, h4]
  omega

/-- A match of `validPath` shows that the path is well formed. -/
theorem FindStringSubmatch_validPath_shape (p : List Char)
    (h : FindStringSubmatch validPath 2 p ≠ none) :
    ∃ op ∈ operations, ∃ w, IsWord w ∧ p = '/' :: (op ++ '/' :: w) := by
  simp only [FindStringSubmatch, doExecute_validPath, execAt, List.drop_zero, ne_eq,
    Option.map_eq_none'] at h
  cases hr : run validPath { pos := 0, rest := p, caps := [] } with
  | nil => simp [hr] at h
  | cons t ts =>
    exact run_validPath_shape p t (by rw [hr]; exact List.mem_cons_self _ _)

theorem IsWord_not_mem (t : List Char) (ht : IsWord t) (c : Char) (hc : isAlnum c = false) :
    c ∉ t := by
  intro hmem
  have := ht.2 c hmem
  rw [hc] at this
  exact Bool.false_ne_true this

/-! ## Properties of the reference rewriting -/

theorem refRewrite_append_of_no_bracket (x y : List Char) (hx : '[' ∉ x) :
    refRewrite (x ++ y) = x ++ refRewrite y := by
  induction x with
  | nil => rfl
  | cons c cs ih =>
    have hc : c ≠ '[' := fun h => hx (by simp [h])
    have hcs : '[' ∉ cs := fun h => hx (List.mem_cons_of_mem _ h)
    rw [List.cons_append, refRewrite_copy _ _ (linkAt_cons_ne c _ hc), ih hcs]
    rfl

/-- A body without any bracketed word is its own reference rewriting. -/
theorem refRewrite_eq_self (b : List Char)
    (h : ∀ u w r, IsWord w → b ≠ u ++ '[' :: (w ++ ']' :: r)) : refRewrite b = b := by
  induction b with
  | nil => rfl
  | cons c cs ih =>
    have hl : linkAt (c :: cs) = none := by
      cases hl : linkAt (c :: cs) with
      | none => rfl
      | some wr =>
        obtain ⟨w, r⟩ := wr
        obtain ⟨hw, hs⟩ := (linkAt_eq_some_iff _ _ _).1 hl
        exact absurd hs (by simpa using h [] w r hw)
    rw [refRewrite_copy _ _ hl, ih]
    intro u w r hw hcs
    exact h (c :: u) w r hw (by rw [hcs]; rfl)

/-- Comparing a bracketed word with a text cut at an opening bracket: the
closing bracket of the word lies before the cut. -/
theorem word_before_bracket (w r cs v : List Char) (hw : ∀ c ∈ w, isAlnum c = true)
    (h : cs ++ '[' :: v = w ++ ']' :: r) : ∃ a, cs = w ++ ']' :: a ∧ r = a ++ '[' :: v := by
  rcases List.append_eq_append_iff.1 h with ⟨a, hwa, hv⟩ | ⟨c, hcs, hr⟩
  · cases a with
    | nil => simp at hv
    | cons e a =>
      simp only [List.cons_append, List.cons.injEq] at hv
      have : isAlnum '[' = true := hw '[' (by rw [hwa, ← hv.1]; simp)
      simp [isAlnum_lbracket] at this
  · cases c with
    | nil => simp at hr
    | cons e c =>
      simp only [List.cons_append, List.cons.injEq] at hr
      exact ⟨c, by rw [hcs, hr.1], hr.2⟩

/-- An opening bracket further on does not change the link at the head. -/
theorem linkAt_append_bracket (s v : List Char) (hs : s ≠ []) :
    linkAt (s ++ '[' :: v) = (linkAt s).map fun wr => (wr.1, wr.2 ++ '[' :: v) := by
  cases hl : linkAt s with
  | some wr =>
    obtain ⟨w, r⟩ := wr
    obtain ⟨hw, rfl⟩ := (linkAt_eq_some_iff _ _ _).1 hl
    simp only [Option.map_some']
    rw [linkAt_eq_some_iff]
    exact ⟨hw, by simp⟩
  | none =>
    simp only [Option.map_none']
    cases hl2 : linkAt (s ++ '[' :: v) with
    | none => rfl
    | some wr =>
      exfalso
      obtain ⟨w, r⟩ := wr
      obtain ⟨hw, hs2⟩ := (linkAt_eq_some_iff _ _ _).1 hl2
      cases s with
      | nil => exact hs rfl
      | cons c cs =>
        simp only [List.cons_append, List.cons.injEq] at hs2
        obtain ⟨a, hcs, _⟩ := word_before_bracket w r cs v hw.2 hs2.2
        have : linkAt (c :: cs) = some (w, a) := by
          rw [linkAt_eq_some_iff]
          exact ⟨hw, by rw [hs2.1, hcs]⟩
        rw [this] at hl
        cases hl

/-- An opening bracket is a barrier: the text before it and the text from it
on are rewritten independently. -/
theorem refRewrite_barrier (v : List Char) : ∀ (n : Nat) (u : List Char), u.length ≤ n →
    refRewrite (u ++ '[' :: v) = refRewrite u ++ refRewrite ('[' :: v) := by
  intro n
  induction n with
  | zero =>
    intro u hu
    have : u = [] := List.length_eq_zero.1 (Nat.le_zero.1 hu)
    subst this
    rfl
  | succ n ih =>
    intro u hu
    cases u with
    | nil => rfl
    | cons c cs =>
      have hb := linkAt_append_bracket (c :: cs) v (by simp)
      cases hl : linkAt (c :: cs) with
      | none =>
        rw [hl] at hb
        simp only [Option.map_none', List.cons_append] at hb
        rw [List.cons_append, refRewrite_copy _ _ hb, refRewrite_copy _ _ hl,
          ih cs (by simpa using hu)]
        rfl
      | some wr =>
        obtain ⟨w, r⟩ := wr
        rw [hl] at hb
        simp only [Option.map_some'] at hb
        have hlen := linkAt_length _ _ _ hl
        simp only [List.length_cons] at hlen hu
        rw [refRewrite_link _ _ _ hb, refRewrite_link _ _ _ hl, ih r (by omega)]
        simp

theorem anchor_head (w : List Char) : ∃ tl, anchor w = '<' :: tl := ⟨_, rfl⟩

theorem anchor_length (w : List Char) : (anchor w).length = 2 * w.length + 21 := by
  simp [anchor]
  omega

theorem anchor_no_bracket (w : List Char) (hw : ∀ c ∈ w, isAlnum c = true) :
    '[' ∉ anchor w := by
  have hn : '[' ∉ w := fun h => by
    have := hw _ h
    simp [isAlnum_lbracket] at this
  simp only [anchor, List.mem_append, not_or]
  refine ⟨⟨⟨⟨⟨⟨by decide, by decide⟩, by decide⟩, hn⟩, by decide⟩, hn⟩, by decide⟩

theorem length_le_refRewrite : ∀ (n : Nat) (x : List Char), x.length ≤ n →
    x.length ≤ (refRewrite x).length := by
  intro n
  induction n with
  | zero =>
    intro x hx
    have : x = [] := List.length_eq_zero.1 (Nat.le_zero.1 hx)
    subst this
    simp
  | succ n ih =>
    intro x hx
    cases x with
    | nil => simp
    | cons c cs =>
      cases hl : linkAt (c :: cs) with
      | none =>
        rw [refRewrite_copy _ _ hl]
        have := ih cs (by simpa using hx)
        simpa using this
      | some wr =>
        obtain ⟨w, r⟩ := wr
        have hlen := linkAt_length _ _ _ hl
        rw [refRewrite_link _ _ _ hl, List.length_append, anchor_length, hlen]
        simp only [List.length_cons] at hlen hx
        have := ih r (by omega)
        omega

/-- A text free of `<` at the head of the rewriting was copied from the head
of the body. -/
theorem refRewrite_head_copied (v : List Char) (hv : '<' ∉ v) : ∀ (cs r : List Char),
    refRewrite cs = v ++ r → ∃ r2, cs = v ++ r2 := by
  induction v with
  | nil => intro cs r _; exact ⟨cs, rfl⟩
  | cons d v ih =>
    intro cs r h
    have hd : d ≠ '<' := fun hd => hv (by simp [hd])
    have hv2 : '<' ∉ v := fun hm => hv (List.mem_cons_of_mem _ hm)
    cases cs with
    | nil => simp [refRewrite_nil] at h
    | cons e es =>
      cases hl : linkAt (e :: es) with
      | some wr =>
        obtain ⟨w, r1⟩ := wr
        rw [refRewrite_link _ _ _ hl] at h
        obtain ⟨tl, htl⟩ := anchor_head w
        rw [htl] at h
        simp only [List.cons_append, List.cons.injEq] at h
        exact absurd h.1.symm hd
      | none =>
        rw [refRewrite_copy _ _ hl] at h
        simp only [List.cons_append, List.cons.injEq] at h
        obtain ⟨r2, hr2⟩ := ih hv2 es r h.2
        exact ⟨r2, by rw [h.1, hr2]; rfl⟩

/-- The reference rewriting is idempotent. -/
theorem refRewrite_idem : ∀ (n : Nat) (b : List Char), b.length ≤ n →
    refRewrite (refRewrite b) = refRewrite b := by
  intro n
  induction n with
  | zero =>
    intro b hb
    have : b = [] := List.length_eq_zero.1 (Nat.le_zero.1 hb)
    subst this
    rfl
  | succ n ih =>
    intro b hb
    cases b with
    | nil => rfl
    | cons c cs =>
      cases hl : linkAt (c :: cs) with
      | some wr =>
        obtain ⟨w, r⟩ := wr
        obtain ⟨hw, _⟩ := (linkAt_eq_some_iff _ _ _).1 hl
        have hlen := linkAt_length _ _ _ hl
        simp only [List.length_cons] at hlen hb
        rw [refRewrite_link _ _ _ hl,
          refRewrite_append_of_no_bracket _ _ (anchor_no_bracket w hw.2), ih r (by omega)]
      | none =>
        rw [refRewrite_copy _ _ hl]
        have hl2 : linkAt (c :: refRewrite cs) = none := by
          cases hl2 : linkAt (c :: refRewrite cs) with
          | none => rfl
          | some wr =>
            exfalso
            obtain ⟨w, r⟩ := wr
            obtain ⟨hw, hs⟩ := (linkAt_eq_some_iff _ _ _).1 hl2
            simp only [List.cons.injEq] at hs
            have hv : '<' ∉ w ++ [']'] := by
              simp only [List.mem_append, List.mem_singleton, not_or]
              exact ⟨IsWord_not_mem w hw '<' (by decide), by decide⟩
            obtain ⟨r2, hr2⟩ := refRewrite_head_copied (w ++ [']']) hv cs r
              (by rw [hs.2]; simp)
            have : linkAt (c :: cs) = some (w, r2) := by
              rw [linkAt_eq_some_iff]
              exact ⟨hw, by rw [hs.1, hr2]; simp⟩
            rw [this] at hl
            cases hl
        rw [refRewrite_copy _ _ hl2, ih cs (by simpa using hb)]

/-- A body that the reference rewriting leaves alone holds no bracketed word. -/
theorem no_link_of_refRewrite_eq_self (b : List Char) (hfix : refRewrite b = b)
    (u w r : List Char) (hw : IsWord w) : b ≠ u ++ '[' :: (w ++ ']' :: r) := by
  intro h
  have hlink : linkAt ('[' :: (w ++ ']' :: r)) = some (w, r) :=
    (linkAt_eq_some_iff _ _ _).2 ⟨hw, rfl⟩
  have h1 : refRewrite b = refRewrite u ++ (anchor w ++ refRewrite r) := by
    rw [h, refRewrite_barrier _ u.length u (le_refl _), refRewrite_link _ _ _ hlink]
  have hlen := congrArg List.length (hfix.symm.trans h1)
  rw [h] at hlen
  have hu := length_le_refRewrite u.length u (le_refl _)
  have hr := length_le_refRewrite r.length r (le_refl _)
  simp only [List.length_append, List.length_cons, anchor_length] at hlen
  omega

/-- The reference rewriting leaves no bracketed word behind. -/
theorem refRewrite_no_link (b u w r : List Char) (hw : IsWord w) :
    refRewrite b ≠ u ++ '[' :: (w ++ ']' :: r) :=
  no_link_of_refRewrite_eq_self (refRewrite b) (refRewrite_idem b.length b (le_refl _)) u w r hw

theorem first_occurrence (c : Char) : ∀ (a a2 b b2 : List Char), c ∉ a → c ∉ a2 →
    a ++ c :: b = a2 ++ c :: b2 → a = a2 ∧ b = b2 := by
  intro a
  induction a with
  | nil =>
    intro a2 b b2 _ h2 h
    cases a2 with
    | nil => simpa using h
    | cons d a2 =>
      simp only [List.nil_append, List.cons_append, List.cons.injEq] at h
      exact absurd (by simp [h.1]) h2
  | cons e a ih =>
    intro a2 b b2 h1 h2 h
    cases a2 with
    | nil =>
      simp only [List.nil_append, List.cons_append, List.cons.injEq] at h
      exact absurd (by simp [h.1]) h1
    | cons d a2 =>
      simp only [List.cons_append, List.cons.injEq] at h
      obtain ⟨h3, h4⟩ := ih a2 b b2 (fun hm => h1 (List.mem_cons_of_mem _ hm))
        (fun hm => h2 (List.mem_cons_of_mem _ hm)) h.2
      exact ⟨by rw [h.1, h3], h4⟩

/-- A bracketed text that is free of brackets and is not a word is copied. -/
theorem refRewrite_nonword_token (x post : List Char) (hx : ∃ c ∈ x, isAlnum c = false)
    (h1 : '[' ∉ x) (h2 : ']' ∉ x) :
    refRewrite ('[' :: (x ++ ']' :: post)) = '[' :: (x ++ ']' :: refRewrite post) := by
  have hl : linkAt ('[' :: (x ++ ']' :: post)) = none := by
    cases hl : linkAt ('[' :: (x ++ ']' :: post)) with
    | none => rfl
    | some wr =>
      exfalso
      obtain ⟨w, r⟩ := wr
      obtain ⟨hw, hs⟩ := (linkAt_eq_some_iff _ _ _).1 hl
      simp only [List.cons.injEq, true_and] at hs
      obtain ⟨hxw, _⟩ := first_occurrence ']' x w post r h2
        (IsWord_not_mem w hw ']' isAlnum_rbracket) hs
      obtain ⟨c, hc, hcal⟩ := hx
      rw [hxw] at hc
      have := hw.2 c hc
      rw [hcal] at this
      exact Bool.false_ne_true this
  rw [refRewrite_copy _ _ hl, refRewrite_append_of_no_bracket _ _ h1,
    refRewrite_copy _ _ (linkAt_cons_ne ']' post (by decide))]

/-! ## Lower-casing and the front page test -/

set_option maxRecDepth 100000 in
theorem asciiToLower_frontPage : ∀ n < 128, ∀ b ∈ "FrontPage".toList,
    (asciiToLower (Char.ofNat n) = b.toLower ↔
      (Char.ofNat n = b ∨ Char.ofNat n = b.toLower ∨ Char.ofNat n = b.toUpper)) := by
  decide

theorem frontPage_letters : ∀ b ∈ "FrontPage".toList,
    b.toLower ∈ "frontpage".toList ∧ b.toNat < 128 ∧ b.toLower.toNat < 128 ∧
      b.toUpper.toNat < 128 := by
  decide

theorem runeToLower_frontPage (env : Env)
    (hlow : ∀ c : Char, 128 ≤ c.toNat → env.unicodeToLower c ∉ "frontpage".toList)
    (a b : Char) (hb : b ∈ "FrontPage".toList) :
    runeToLower env a = b.toLower ↔ (a = b ∨ a = b.toLower ∨ a = b.toUpper) := by
  by_cases ha : a.toNat < 128
  · have := asciiToLower_frontPage a.toNat ha b hb
    rw [Char.ofNat_toNat] at this
    simpa [runeToLower, ha] using this
  · obtain ⟨h1, h2, h3, h4⟩ := frontPage_letters b hb
    have hl := hlow a (by omega)
    simp only [runeToLower, ha, if_false]
    constructor
    · intro h
      rw [h] at hl
      exact absurd h1 hl
    · rintro (h | h | h) <;> · rw [h] at ha; exact absurd (by assumption) ha

theorem ToLower_eq_iff (env : Env)
    (hlow : ∀ c : Char, 128 ≤ c.toNat → env.unicodeToLower c ∉ "frontpage".toList) :
    ∀ (t : List Char), (∀ b ∈ t, b ∈ "FrontPage".toList) → ∀ s : List Char,
      (ToLower env s = t.map Char.toLower ↔ EqIgnoreCase s t) := by
  intro t
  induction t with
  | nil =>
    intro _ s
    cases s with
    | nil => simp [ToLower, EqIgnoreCase]
    | cons a s => simp [ToLower, EqIgnoreCase]
  | cons b t ih =>
    intro hb s
    cases s with
    | nil => simp [ToLower, EqIgnoreCase]
    | cons a s =>
      have h1 := runeToLower_frontPage env hlow a b (hb b (List.mem_cons_self _ _))
      have h2 := ih (fun c hc => hb c (List.mem_cons_of_mem _ hc)) s
      simp only [ToLower, EqIgnoreCase, List.map_cons, List.cons.injEq,
        List.forall₂_cons] at h2 ⊢
      rw [h1, h2]

theorem ToLower_frontPage (env : Env)
    (hlow : ∀ c : Char, 128 ≤ c.toNat → env.unicodeToLower c ∉ "frontpage".toList)
    (s : List Char) :
    ToLower env s = "frontpage".toList ↔ EqIgnoreCase s "FrontPage".toList := by
  have := ToLower_eq_iff env hlow "FrontPage".toList (fun _ h => h) s
  have he : "FrontPage".toList.map Char.toLower = "frontpage".toList := by decide
  rwa [he] at this

/-! ## The route table -/

theorem mainMux_eq (env : Env) :
    mainMux env =
      { m := [("/".toList, frontPageHandler env),
              ("/view/".toList, makeHandler (viewHandler env)),
              ("/edit/".toList, makeHandler (editHandler env)),
              ("/save/".toList, makeHandler (saveHandler env))],
        es := [("/view/".toList, makeHandler (viewHandler env)),
               ("/edit/".toList, makeHandler (editHandler env)),
               ("/save/".toList, makeHandler (saveHandler env)),
               ("/".toList, frontPageHandler env)] } := by
  rfl

theorem makeHandler_notFound (fn : TitleHandler) (st : Storage) (r : Request)
    (h : FindStringSubmatch validPath 2 r.Path = none) :
    makeHandler fn st r = (Response.notFound, st) := by
  simp [makeHandler, h]

/-- Under one of the three title routes the table selects a handler wrapped
by `makeHandler`. -/
theorem mainMux_match_title (env : Env) (pre rest : List Char) (hpre : pre ∈ titleRoutes) :
    ∃ fn : TitleHandler, (mainMux env).match (pre ++ rest) = some (makeHandler fn) := by
  simp only [titleRoutes, List.mem_cons, List.mem_singleton, List.not_mem_nil, or_false] at hpre
  rcases hpre with rfl | rfl | rfl
  · refine ⟨viewHandler env, ?_⟩
    cases rest <;> simp [mainMux_eq, ServeMux.match]
  · refine ⟨editHandler env, ?_⟩
    cases rest <;> simp [mainMux_eq, ServeMux.match]
  · refine ⟨saveHandler env, ?_⟩
    cases rest <;> simp [mainMux_eq, ServeMux.match]

theorem mainMux_shouldRedirect_title (env : Env) (pre rest : List Char)
    (hpre : pre ∈ titleRoutes) : (mainMux env).shouldRedirect (pre ++ rest) = false := by
  simp only [titleRoutes, List.mem_cons, List.mem_singleton, List.not_mem_nil, or_false] at hpre
  rcases hpre with rfl | rfl | rfl <;>
    cases rest <;> simp [mainMux_eq, ServeMux.shouldRedirect]

/-- The server on a clean path under one of the three title routes that is
not well formed. -/
theorem serve_title_notFound (env : Env) (st : Storage) (r : Request)
    (hclean : env.cleanPath r.Path = r.Path) (pre rest : List Char) (hpre : pre ∈ titleRoutes)
    (hpath : r.Path = pre ++ rest)
    (hbad : ¬ ∃ op ∈ operations, ∃ t, IsWord t ∧ r.Path = '/' :: (op ++ '/' :: t)) :
    serve env st r = (Response.notFound, st) := by
  have hnone : FindStringSubmatch validPath 2 r.Path = none := by
    by_contra h
    exact hbad (FindStringSubmatch_validPath_shape _ h)
  obtain ⟨fn, hfn⟩ := mainMux_match_title env pre rest hpre
  have hsr := mainMux_shouldRedirect_title env pre rest hpre
  rw [← hpath] at hfn hsr
  simp only [serve, ServeMux.ServeHTTP, hclean, hsr, Bool.false_eq_true, if_false, ne_eq,
    not_true_eq_false, hfn]
  exact makeHandler_notFound fn st r hnone

/-- The server on a clean path that starts with a slash and lies under none of
the three title routes: the pattern `/` catches it. -/
theorem serve_catch_all (env : Env) (st : Storage) (r : Request)
    (hclean : env.cleanPath r.Path = r.Path) (q : List Char) (hpath : r.Path = '/' :: q)
    (hout : ∀ pre ∈ titleRoutes, pre.isPrefixOf r.Path = false)
    (hslash : ∀ pre ∈ titleRoutes, r.Path ++ ['/'] ≠ pre) :
    serve env st r = frontPageHandler env st r := by
  have h1 : ['/', 'v', 'i', 'e', 'w', '/'].isPrefixOf r.Path = false :=
    hout "/view/".toList (by decide)
  have h2 : ['/', 'e', 'd', 'i', 't', '/'].isPrefixOf r.Path = false :=
    hout "/edit/".toList (by decide)
  have h3 : ['/', 's', 'a', 'v', 'e', '/'].isPrefixOf r.Path = false :=
    hout "/save/".toList (by decide)
  have e1 : ¬ ['/', 'v', 'i', 'e', 'w', '/'] = r.Path := fun h => by
    rw [← h] at h1; revert h1; decide
  have e2 : ¬ ['/', 'e', 'd', 'i', 't', '/'] = r.Path := fun h => by
    rw [← h] at h2; revert h2; decide
  have e3 : ¬ ['/', 's', 'a', 'v', 'e', '/'] = r.Path := fun h => by
    rw [← h] at h3; revert h3; decide
  have s1 : ¬ ['/', 'v', 'i', 'e', 'w', '/'] = r.Path ++ ['/'] :=
    fun h => hslash "/view/".toList (by decide) h.symm
  have s2 : ¬ ['/', 'e', 'd', 'i', 't', '/'] = r.Path ++ ['/'] :=
    fun h => hslash "/edit/".toList (by decide) h.symm
  have s3 : ¬ ['/', 's', 'a', 'v', 'e', '/'] = r.Path ++ ['/'] :=
    fun h => hslash "/save/".toList (by decide) h.symm
  have hp : ['/'].isPrefixOf r.Path = true := by rw [hpath]; simp
  have hne : ¬ r.Path = [] := by rw [hpath]; simp
  have hsr : (mainMux env).shouldRedirect r.Path = false := by
    by_cases e0 : ['/'] = r.Path
    · simp [mainMux_eq, ServeMux.shouldRedirect, e0]
    · simp [mainMux_eq, ServeMux.shouldRedirect, e0, e1, e2, e3, s1, s2, s3, hne]
  have hm : (mainMux env).match r.Path = some (frontPageHandler env) := by
    by_cases e0 : ['/'] = r.Path
    · simp [mainMux_eq, ServeMux.match, List.find?_cons, e0]
    · have b0 : (['/'] == r.Path) = false := by simpa using e0
      have b1 : (['/', 'v', 'i', 'e', 'w', '/'] == r.Path) = false := by simpa using e1
      have b2 : (['/', 'e', 'd', 'i', 't', '/'] == r.Path) = false := by simpa using e2
      have b3 : (['/', 's', 'a', 'v', 'e', '/'] == r.Path) = false := by simpa using e3
      simp [mainMux_eq, ServeMux.match, List.find?_cons, b0, b1, b2, b3, h1, h2, h3, hp]
  simp only [serve, ServeMux.ServeHTTP, hclean, hsr, Bool.false_eq_true, if_false, ne_eq,
    not_true_eq_false, hm]

theorem frontPageHandler_rendered (env : Env) (st : Storage) (r : Request) :
    ∃ name p failure, (frontPageHandler env st r).1 = Response.rendered name p failure := by
  cases h : loadPage st "FrontPage".toList with
  | error e =>
    simp only [frontPageHandler, h, renderTemplate]
    exact ⟨_, _, _, rfl⟩
  | ok p =>
    simp only [frontPageHandler, h, renderTemplate]
    exact ⟨_, _, _, rfl⟩

theorem statusCode_rendered_ne (name : List Char) (p : Page)
    (failure : Option (Bool × List Char)) :
    (Response.rendered name p failure).statusCode ≠ 404 := by
  cases failure with
  | none => simp [Response.statusCode]
  | some f =>
    obtain ⟨written, msg⟩ := f
    cases written <;> simp [Response.statusCode]

/-- The anchor of a word, letter by letter. -/
theorem anchor_eq (w : List Char) :
    anchor w = "<a href=\"/view/".toList ++ w ++ "\">".toList ++ w ++ "</a>".toList := by
  simp [anchor]

/-- A text that ends with a closing bracket and holds no bracketed word is
copied. -/
theorem refRewrite_linkfree (post : List Char) : ∀ s : List Char,
    (∀ u w r, IsWord w → s ++ [']'] ≠ u ++ '[' :: (w ++ ']' :: r)) →
    refRewrite (s ++ ']' :: post) = s ++ ']' :: refRewrite post := by
  intro s
  induction s with
  | nil =>
    intro _
    exact refRewrite_copy _ _ (linkAt_cons_ne ']' post (by decide))
  | cons c cs ih =>
    intro h
    have hl : linkAt (c :: (cs ++ ']' :: post)) = none := by
      cases hl : linkAt (c :: (cs ++ ']' :: post)) with
      | none => rfl
      | some wr =>
        exfalso
        obtain ⟨w, r⟩ := wr
        obtain ⟨hw, hs⟩ := (linkAt_eq_some_iff _ _ _).1 hl
        simp only [List.cons.injEq] at hs
        obtain ⟨hc, heq⟩ := hs
        have hnb : ']' ∉ w := IsWord_not_mem w hw ']' isAlnum_rbracket
        have hcsw : ∀ a, cs ≠ w ++ ']' :: a := by
          intro a ha
          exact h [] w (a ++ [']']) hw (by rw [hc, ha]; simp)
        have hcs : cs ≠ w := by
          intro ha
          exact h [] w [] hw (by rw [hc, ha]; simp)
        rcases List.append_eq_append_iff.1 heq with ⟨a, hwa, hp⟩ | ⟨a, hca, hr⟩
        · cases a with
          | nil => exact hcs (by simpa using hwa.symm)
          | cons e a =>
            simp only [List.cons_append, List.cons.injEq] at hp
            exact hnb (by rw [hwa, ← hp.1]; simp)
        · cases a with
          | nil => exact hcs (by simpa using hca)
          | cons e a =>
            simp only [List.cons_append, List.cons.injEq] at hr
            exact hcsw a (by rw [hca, ← hr.1])
    have ih1 := ih fun u w r hw hcs =>
      h (c :: u) w r hw (by rw [List.cons_append, hcs]; rfl)
    rw [List.cons_append, refRewrite_copy _ _ hl, ih1]
    rfl

/-- Every match that the search for `wikiLink` returns is a bracketed word. -/
theorem doExecute_wikiLink_token (b : List Char) (pos : Nat) (m : Match)
    (h : doExecute wikiLink b pos = some m) :
    ∃ w, IsWord w ∧ slice b m.a0 m.a1 = '[' :: (w ++ [']']) := by
  by_cases hpos : pos ≤ b.length + 1
  · have hs := search_wikiLink b (b.length + 1 - pos) pos (by omega)
    simp only [doExecute] at h
    rw [h] at hs
    obtain ⟨u, w, r, hw, hsrc, h0, ha1, _⟩ := hs
    refine ⟨w, hw, ?_⟩
    have hd0 : b.drop m.a0 = ('[' :: (w ++ [']'])) ++ r := by
      rw [h0, ← List.drop_drop, hsrc, List.drop_left]; simp
    have := slice_of_drop_eq b ('[' :: (w ++ [']'])) r m.a0 hd0
    rw [← this, ha1]; simp [Nat.add_assoc]
  · have hz : b.length + 1 - pos = 0 := by omega
    simp [doExecute, hz, search] at h

/-! ## The claims -/

/-- C1: the match of the router, `validPath.FindStringSubmatch` as `makeHandler`
uses it, succeeds exactly on the paths `/op/t` with `op` one of view, edit and
save and `t` a non-empty string of ASCII letters and digits.  When it succeeds
the wrapped handler is called with the title `t`, which holds no slash, dot,
hyphen or newline; when it fails no wrapped handler is called and the response
is 404. -/
theorem validPath_match_iff (fn : TitleHandler) (st : Storage) (r : Request) :
    (FindStringSubmatch validPath 2 r.Path ≠ none ↔
      ∃ op ∈ operations, ∃ t, IsWord t ∧ r.Path = "/".toList ++ op ++ "/".toList ++ t) ∧
    (∀ op ∈ operations, ∀ t, IsWord t → r.Path = "/".toList ++ op ++ "/".toList ++ t →
      FindStringSubmatch validPath 2 r.Path = some [r.Path, op, t] ∧
      makeHandler fn st r = fn st r t ∧
      '/' ∉ t ∧ '.' ∉ t ∧ '-' ∉ t ∧ Char.ofNat 10 ∉ t) ∧
    (FindStringSubmatch validPath 2 r.Path = none →
      ∀ fn2 : TitleHandler, makeHandler fn2 st r = (Response.notFound, st) ∧
        (makeHandler fn2 st r).1.statusCode = 404) := by
  have hok : ∀ op ∈ operations, ∀ t, IsWord t →
      r.Path = "/".toList ++ op ++ "/".toList ++ t →
      FindStringSubmatch validPath 2 r.Path = some [r.Path, op, t] := by
    intro op hop t ht hp
    have := FindStringSubmatch_validPath_ok op t hop ht
    rw [hp]
    simpa using this
  refine ⟨⟨fun h => ?_, ?_⟩, ?_, ?_⟩
  · obtain ⟨op, hop, w, hw, hp⟩ := FindStringSubmatch_validPath_shape _ h
    exact ⟨op, hop, w, hw, by rw [hp]; simp⟩
  · rintro ⟨op, hop, t, ht, hp⟩
    rw [hok op hop t ht hp]
    simp
  · intro op hop t ht hp
    have hm := hok op hop t ht hp
    refine ⟨hm, ?_, IsWord_not_mem t ht _ (by decide), IsWord_not_mem t ht _ (by decide),
      IsWord_not_mem t ht _ (by decide), IsWord_not_mem t ht _ (by decide)⟩
    simp [makeHandler, hm]
  · intro h fn2
    have := makeHandler_notFound fn2 st r h
    exact ⟨this, by rw [this]; rfl⟩

/-- C1, at `/view/Abc123`: the handler is called with the title `Abc123`;
`/view/abc-123` and `/edit/` do not match. -/
theorem validPath_match_iff_witness :
    makeHandler (viewHandler sampleEnv) emptyStorage (sampleRequest "/view/Abc123".toList []) =
        viewHandler sampleEnv emptyStorage (sampleRequest "/view/Abc123".toList [])
          "Abc123".toList ∧
      FindStringSubmatch validPath 2 "/view/abc-123".toList = none ∧
      FindStringSubmatch validPath 2 "/edit/".toList = none ∧
      (makeHandler (viewHandler sampleEnv) emptyStorage
        (sampleRequest "/edit/".toList [])).1.statusCode = 404 :=
  ⟨((validPath_match_iff (viewHandler sampleEnv) emptyStorage
      (sampleRequest "/view/Abc123".toList [])).2.1 "view".toList (by decide)
      "Abc123".toList (by decide) rfl).2.1,
    by decide, by decide,
    ((validPath_match_iff (viewHandler sampleEnv) emptyStorage
      (sampleRequest "/edit/".toList [])).2.2 (by decide) (viewHandler sampleEnv)).2⟩

/-- C2: for every body `b`, `setLink b` is the reference rewriting of `b`; a
body without any bracketed word is returned unchanged.  The reference
rewriting is the scan from the left that the last three parts spell out: the
empty body gives the empty output; at a bracketed word `[w]` the output is
exactly `<a href="/view/w">w</a>` and the scan goes on behind the closing
bracket; any other rune is copied and the scan goes on behind it. -/
theorem setLink_refines_refRewrite (b : List Char) :
    setLink b = some (refRewrite b) ∧
    ((∀ u w r, IsWord w → b ≠ u ++ "[".toList ++ w ++ "]".toList ++ r) →
      setLink b = some b) ∧
    refRewrite [] = [] ∧
    (∀ w r, IsWord w →
      refRewrite ("[".toList ++ w ++ "]".toList ++ r) =
        "<a href=\"/view/".toList ++ w ++ "\">".toList ++ w ++ "</a>".toList ++
          refRewrite r) ∧
    (∀ c cs, (¬ ∃ w r, IsWord w ∧ c :: cs = "[".toList ++ w ++ "]".toList ++ r) →
      refRewrite (c :: cs) = c :: refRewrite cs) := by
  refine ⟨setLink_eq_refRewrite b, fun h => ?_, refRewrite_nil, ?_, ?_⟩
  · rw [setLink_eq_refRewrite, refRewrite_eq_self b]
    intro u w r hw hb
    exact h u w r hw (by rw [hb]; simp)
  · intro w r hw
    have hlink : linkAt ('[' :: (w ++ ']' :: r)) = some (w, r) :=
      (linkAt_eq_some_iff _ _ _).2 ⟨hw, rfl⟩
    have he : "[".toList ++ w ++ "]".toList ++ r = '[' :: (w ++ ']' :: r) := by simp
    rw [he, refRewrite_link _ _ _ hlink, anchor_eq]
  · intro c cs h
    apply refRewrite_copy
    cases hl : linkAt (c :: cs) with
    | none => rfl
    | some wr =>
      exfalso
      obtain ⟨w, r⟩ := wr
      obtain ⟨hw, hs⟩ := (linkAt_eq_some_iff _ _ _).1 hl
      exact h ⟨w, r, hw, by rw [hs]; simp⟩

/-- C2, at two bodies: one with a link, one without. -/
theorem setLink_refines_refRewrite_witness :
    setLink "Hello [World]!".toList =
        some "Hello <a href=\"/view/World\">World</a>!".toList ∧
      setLink "no [] link [a b] here".toList = some "no [] link [a b] here".toList :=
  ⟨(setLink_refines_refRewrite "Hello [World]!".toList).1.trans (by decide),
    (setLink_refines_refRewrite "no [] link [a b] here".toList).2.1 (fun u w r hw hb =>
      no_link_of_refRewrite_eq_self "no [] link [a b] here".toList (by decide) u w r hw
        (by rw [hb]; simp))⟩

/-- C3: if the body `b` contains the token `[w]` for a word `w`, then
`setLink b` contains the anchor `<a href="/view/w">w</a>`; and every bracketed
token `[x]` of `b`, a text `x` without brackets between a pair of brackets,
that has a rune other than a letter or digit between its brackets is left
unmodified in the output, in place between the renderings of the text before
it and of the text after it.  More generally, the same holds of every text
between brackets of `b` that contains no bracketed word. -/
theorem setLink_tokens (b : List Char) :
    (∀ w, IsWord w → ("[".toList ++ w ++ "]".toList) <:+: b →
      ∃ out, setLink b = some out ∧
        ("<a href=\"/view/".toList ++ w ++ "\">".toList ++ w ++ "</a>".toList) <:+: out) ∧
    (∀ pre x post, b = pre ++ "[".toList ++ x ++ "]".toList ++ post →
      (∃ c ∈ x, isAlnum c = false) → '[' ∉ x → ']' ∉ x →
      ∃ o1 o2, setLink pre = some o1 ∧ setLink post = some o2 ∧
        setLink b = some (o1 ++ "[".toList ++ x ++ "]".toList ++ o2)) ∧
    (∀ pre x post, b = pre ++ "[".toList ++ x ++ "]".toList ++ post →
      (∀ u w r, IsWord w →
        "[".toList ++ x ++ "]".toList ≠ u ++ "[".toList ++ w ++ "]".toList ++ r) →
      ∃ o1 o2, setLink pre = some o1 ∧ setLink post = some o2 ∧
        setLink b = some (o1 ++ "[".toList ++ x ++ "]".toList ++ o2)) := by
  refine ⟨?_, ?_, ?_⟩
  · rintro w hw ⟨u, r, hb⟩
    refine ⟨refRewrite b, setLink_eq_refRewrite b, refRewrite u, refRewrite r, ?_⟩
    have hlink : linkAt ('[' :: (w ++ ']' :: r)) = some (w, r) :=
      (linkAt_eq_some_iff _ _ _).2 ⟨hw, rfl⟩
    have hb2 : b = u ++ '[' :: (w ++ ']' :: r) := by rw [← hb]; simp
    rw [hb2, refRewrite_barrier _ u.length u (le_refl _), refRewrite_link _ _ _ hlink,
      anchor_eq]
    simp
  · intro pre x post hb hx h1 h2
    refine ⟨refRewrite pre, refRewrite post, setLink_eq_refRewrite pre,
      setLink_eq_refRewrite post, ?_⟩
    have hb2 : b = pre ++ '[' :: (x ++ ']' :: post) := by rw [hb]; simp
    rw [setLink_eq_refRewrite, hb2, refRewrite_barrier _ pre.length pre (le_refl _),
      refRewrite_nonword_token x post hx h1 h2]
    simp
  · intro pre x post hb hfree
    refine ⟨refRewrite pre, refRewrite post, setLink_eq_refRewrite pre,
      setLink_eq_refRewrite post, ?_⟩
    have hb2 : b = pre ++ (('[' :: x) ++ ']' :: post) := by rw [hb]; simp
    have hcopy := refRewrite_linkfree post ('[' :: x) (fun u w r hw h =>
      hfree u w r hw (by
        have : "[".toList ++ x ++ "]".toList = ('[' :: x) ++ [']'] := by simp
        rw [this, h]; simp))
    rw [setLink_eq_refRewrite, hb2, List.cons_append,
      refRewrite_barrier _ pre.length pre (le_refl _), ← List.cons_append, hcopy]
    simp

/-- C3, at the body `see [Foo] and [a b]`: the anchor of `Foo` is in the output
and the token `[a b]` stays; and in `x[a [ b]y` the text `[a [ b]` stays. -/
theorem setLink_tokens_witness :
    (∃ out, setLink "see [Foo] and [a b]".toList = some out ∧
      "<a href=\"/view/Foo\">Foo</a>".toList <:+: out) ∧
    setLink "see [Foo] and [a b]".toList =
      some "see <a href=\"/view/Foo\">Foo</a> and [a b]".toList ∧
    (∃ o1 o2, setLink "see [Foo] and ".toList = some o1 ∧ setLink [] = some o2 ∧
      setLink "see [Foo] and [a b]".toList =
        some (o1 ++ "[".toList ++ "a b".toList ++ "]".toList ++ o2)) ∧
    (∃ o1 o2, setLink "x".toList = some o1 ∧ setLink "y".toList = some o2 ∧
      setLink "x[a [ b]y".toList =
        some (o1 ++ "[".toList ++ "a [ b".toList ++ "]".toList ++ o2)) :=
  ⟨(setLink_tokens "see [Foo] and [a b]".toList).1 "Foo".toList (by decide)
      ⟨"see ".toList, " and [a b]".toList, by decide⟩,
    by decide,
    (setLink_tokens "see [Foo] and [a b]".toList).2.1 "see [Foo] and ".toList "a b".toList []
      (by decide) ⟨' ', by decide, by decide⟩ (by decide) (by decide),
    (setLink_tokens "x[a [ b]y".toList).2.2 "x".toList "a [ b".toList "y".toList
      (by decide) (fun u w r hw hb =>
        no_link_of_refRewrite_eq_self "[a [ b]".toList (by decide) u w r hw
          (by
            have : "[a [ b]".toList = "[".toList ++ "a [ b".toList ++ "]".toList := by decide
            rw [this, hb]; simp))⟩

/-- C4: over the storage state, if saving the page with title `T` and body `B`
succeeds, then loading `T` from the resulting state succeeds and returns the
page with title `T` and body exactly `B`, and the file of `T` holds `B`,
whatever the state held before under the title and whether or not `B` is
empty.  This holds for every title, in particular for those made of one or
more ASCII letters and digits. -/
theorem save_loadPage_roundtrip (st st1 : Storage) (T B : List Char) (front : Bool)
    (h : Page.save st { Title := T, Body := B, IsFront := front } = .ok st1) :
    loadPage st1 T = .ok { Title := T, Body := B, IsFront := false } ∧
      (∀ q, loadPage st1 T = .ok q → q.Title = T ∧ q.Body = B) ∧
      st1.files ("data/".toList ++ T ++ ".txt".toList) = some B := by
  have h2 : WriteFile st (pageFile T) B = .ok st1 := h
  unfold WriteFile at h2
  split at h2
  · cases h2
  · injection h2 with h2
    subst h2
    have hr : ReadFile
        { st with files := fun n => if n = pageFile T then some B else st.files n }
        (pageFile T) = .ok B := by
      simp [ReadFile]
    have hload : loadPage
        { st with files := fun n => if n = pageFile T then some B else st.files n } T =
        .ok { Title := T, Body := B, IsFront := false } := by
      show (match ReadFile _ (pageFile T) with
        | .error err => Except.error err
        | .ok body => Except.ok (NewPageWithBody T body)) = _
      rw [hr]
      rfl
    refine ⟨hload, ?_, ?_⟩
    · intro q hq
      rw [hload] at hq
      injection hq with hq
      subst hq
      exact ⟨rfl, rfl⟩
    · show (if pageFile T = pageFile T then some B else st.files (pageFile T)) = some B
      simp

/-- C4, saving the body `Hello [World]` and then the empty body over the
existing page `Test`, whose body was `old`. -/
theorem save_loadPage_roundtrip_witness :
    IsWord "Test".toList ∧
      loadPage oldTestStorage "Test".toList =
        .ok { Title := "Test".toList, Body := "old".toList, IsFront := false } ∧
      (∃ st1, (NewPageWithBody "Test".toList "Hello [World]".toList).save oldTestStorage =
          .ok st1 ∧
        loadPage st1 "Test".toList =
          .ok { Title := "Test".toList, Body := "Hello [World]".toList, IsFront := false } ∧
        st1.files "data/Test.txt".toList = some "Hello [World]".toList) ∧
      (NewPageWithBody "Test".toList []).save oldTestStorage = .ok newTestStorage ∧
      loadPage newTestStorage "Test".toList =
        .ok { Title := "Test".toList, Body := [], IsFront := false } :=
  ⟨by decide, rfl,
    ⟨_, rfl,
      (save_loadPage_roundtrip oldTestStorage _ "Test".toList "Hello [World]".toList false
        rfl).1,
      (save_loadPage_roundtrip oldTestStorage _ "Test".toList "Hello [World]".toList false
        rfl).2.2⟩,
    rfl,
    (save_loadPage_roundtrip oldTestStorage newTestStorage "Test".toList [] false rfl).1⟩

/-- C5, as amended: for a request path that the path cleaning of `net/http`
leaves unchanged, if the path lies under `/view/`, `/edit/` or `/save/` and is
not of the shape `/op/T` with `T` one or more letters and digits, the server
responds 404; if the path starts with a slash, lies under none of the three
and is none of `/view`, `/edit`, `/save`, the route `/` hands it to
`frontPageHandler`, whose response is never 404. -/
theorem serve_status (env : Env) (st : Storage) (r : Request)
    (hclean : env.cleanPath r.Path = r.Path) :
    ((∃ pre ∈ titleRoutes, pre <+: r.Path) →
      (¬ ∃ op ∈ operations, ∃ t, IsWord t ∧ r.Path = "/".toList ++ op ++ "/".toList ++ t) →
      serve env st r = (Response.notFound, st) ∧ (serve env st r).1.statusCode = 404) ∧
    ((∃ q, r.Path = "/".toList ++ q) →
      (∀ pre ∈ titleRoutes, ¬ pre <+: r.Path) →
      (∀ pre ∈ titleRoutes, r.Path ++ "/".toList ≠ pre) →
      serve env st r = frontPageHandler env st r ∧ (serve env st r).1.statusCode ≠ 404) := by
  constructor
  · rintro ⟨pre, hpre, rest, hrest⟩ hbad
    have := serve_title_notFound env st r hclean pre rest hpre hrest.symm
      (by
        rintro ⟨op, hop, t, ht, hp⟩
        exact hbad ⟨op, hop, t, ht, by rw [hp]; simp⟩)
    exact ⟨this, by rw [this]; rfl⟩
  · rintro ⟨q, hq⟩ hout hslash
    have := serve_catch_all env st r hclean q (by rw [hq]; rfl)
      (fun pre hpre =>
        Bool.eq_false_iff.2 fun hh => hout pre hpre ( List.isPrefixOf_iff_prefix.1 hh))
      hslash
    refine ⟨this, ?_⟩
    rw [this]
    obtain ⟨name, p, failure, hr⟩ := frontPageHandler_rendered env st r
    rw [hr]
    exact statusCode_rendered_ne name p failure

/-- C5 as amended, at the paths `/view/abc-123` and `/foo`. -/
theorem serve_status_witness :
    (serve sampleEnv emptyStorage (sampleRequest "/view/abc-123".toList [])).1.statusCode = 404 ∧
      serve sampleEnv emptyStorage (sampleRequest "/foo".toList []) =
        frontPageHandler sampleEnv emptyStorage (sampleRequest "/foo".toList []) :=
  ⟨((serve_status sampleEnv emptyStorage (sampleRequest "/view/abc-123".toList []) rfl).1
      ⟨"/view/".toList, by decide, "abc-123".toList, rfl⟩
      (by
        rintro ⟨op, hop, t, ht, hp⟩
        have h1 := operations_length op hop
        have h2 : t = "abc-123".toList := by
          have h3 := congrArg (List.drop 6) hp
          have h4 : ("/".toList ++ op ++ "/".toList ++ t).drop 6 = t := by
            have : ("/".toList ++ op ++ "/".toList).length = 6 := by simp [h1]
            rw [← this, List.drop_left]
          rw [h4] at h3
          exact h3.symm
        rw [h2] at ht
        revert ht
        decide)).2,
    ((serve_status sampleEnv emptyStorage (sampleRequest "/foo".toList []) rfl).2
      ⟨"foo".toList, rfl⟩ (by decide) (by decide)).1⟩

/-- C5 as stated fails: the path `/foo` is not `/` and is not of the shape
`/view/T`, `/edit/T` or `/save/T`, and the server answers it with the edit form
of the front page, status 200, not 404. -/
theorem serve_foo_not_404 :
    "/foo".toList ≠ "/".toList ∧
      (¬ ∃ op ∈ operations, ∃ t, IsWord t ∧
        "/foo".toList = "/".toList ++ op ++ "/".toList ++ t) ∧
      (serve sampleEnv emptyStorage (sampleRequest "/foo".toList [])).1 =
        Response.rendered "edit.html".toList
          { Title := "FrontPage".toList, Body := [], IsFront := true } none ∧
      (serve sampleEnv emptyStorage (sampleRequest "/foo".toList [])).1.statusCode = 200 := by
  refine ⟨by decide, ?_, by decide, by decide⟩
  rintro ⟨op, hop, t, _, hp⟩
  have h1 := operations_length op hop
  have h2 := congrArg List.length hp
  simp [h1] at h2
  omega

/-- C6: for every title `T` and storage state, `viewHandler` answers with a
302 redirect to `/edit/T` exactly when `loadPage T` fails, and then renders no
template; when `loadPage T` succeeds it executes the template `view.html` on
the loaded page (title `T`, the stored body) and sends no redirect.  The
storage state is unchanged in both cases. -/
theorem viewHandler_redirect_iff (env : Env) (st : Storage) (r : Request) (T : List Char) :
    ((∃ err, loadPage st T = .error err) ↔
      (viewHandler env st r T).1 = Response.redirect ("/edit/".toList ++ T) 302) ∧
    ((∃ err, loadPage st T = .error err) →
      ∀ name q failure, (viewHandler env st r T).1 ≠ Response.rendered name q failure) ∧
    (∀ p, loadPage st T = .ok p →
      p.Title = T ∧ st.files (pageFile T) = some p.Body ∧
      (∃ q, q.Title = T ∧ q.Body = p.Body ∧
        (viewHandler env st r T).1 =
          Response.rendered "view.html".toList q
            (env.executeTemplate "view.html".toList q)) ∧
      ∀ url code, (viewHandler env st r T).1 ≠ Response.redirect url code) ∧
    (viewHandler env st r T).2 = st := by
  have hload : ∀ p, loadPage st T = .ok p →
      p.Title = T ∧ st.files (pageFile T) = some p.Body := by
    intro p hp
    have hp2 : (match ReadFile st (pageFile T) with
      | .error err => Except.error err
      | .ok body => Except.ok (NewPageWithBody T body)) = Except.ok p := hp
    unfold ReadFile at hp2
    cases hf : st.files (pageFile T) with
    | none => simp [hf] at hp2
    | some data =>
      simp only [hf, Except.ok.injEq] at hp2
      subst hp2
      exact ⟨rfl, rfl⟩
  cases hl : loadPage st T with
  | error err =>
    have hv : viewHandler env st r T = (Response.redirect ("/edit/".toList ++ T) 302, st) := by
      simp only [viewHandler, hl]
    refine ⟨⟨fun _ => by rw [hv], fun _ => ⟨err, rfl⟩⟩, ?_, ?_, by rw [hv]⟩
    · intro _ name q failure
      rw [hv]
      exact fun h => Response.noConfusion h
    · intro p hp
      cases hp
  | ok p =>
    have hv : viewHandler env st r T = ((renderTemplate env "view".toList p).1, st) := by
      simp only [viewHandler, hl]
    obtain ⟨hT, hB⟩ := hload p hl
    have hq : ∃ q, q.Title = T ∧ q.Body = p.Body ∧
        (renderTemplate env "view".toList p).1 =
          Response.rendered "view.html".toList q
            (env.executeTemplate "view.html".toList q) := by
      simp only [renderTemplate]
      split
      · exact ⟨{ p with IsFront := true }, hT, rfl, rfl⟩
      · exact ⟨p, hT, rfl, rfl⟩
    obtain ⟨q, hq1, hq2, hq3⟩ := hq
    refine ⟨⟨?_, ?_⟩, ?_, ?_, by rw [hv]⟩
    · rintro ⟨err, herr⟩
      cases herr
    · intro h
      rw [hv] at h
      simp only at h
      rw [hq3] at h
      exact Response.noConfusion h
    · rintro ⟨err, herr⟩
      cases herr
    · intro p2 hp2
      injection hp2 with hp2
      subst hp2
      refine ⟨hT, hB, ⟨q, hq1, hq2, by rw [hv]; exact hq3⟩, ?_⟩
      intro url code
      rw [hv]
      simp only
      rw [hq3]
      exact fun h => Response.noConfusion h

/-- C6, viewing the page `Missing` of the empty storage. -/
theorem viewHandler_redirect_iff_witness :
    (viewHandler sampleEnv emptyStorage (sampleRequest "/view/Missing".toList [])
      "Missing".toList).1 = Response.redirect "/edit/Missing".toList 302 ∧
    (∃ q, q.Title = "Test".toList ∧ q.Body = "old".toList ∧
      (viewHandler sampleEnv oldTestStorage (sampleRequest "/view/Test".toList [])
        "Test".toList).1 =
        Response.rendered "view.html".toList q
          (sampleEnv.executeTemplate "view.html".toList q)) :=
  ⟨(viewHandler_redirect_iff sampleEnv emptyStorage (sampleRequest "/view/Missing".toList [])
      "Missing".toList).1.1 ⟨_, rfl⟩,
    ((viewHandler_redirect_iff sampleEnv oldTestStorage (sampleRequest "/view/Test".toList [])
      "Test".toList).2.2.1 (NewPageWithBody "Test".toList "old".toList) rfl).2.2.1⟩

/-- C7: for every title `T` and submitted form, `saveHandler` writes to
`data/T.txt` exactly the value of the form field `body`, which is empty when
the field is missing; if the write succeeds the file holds that value and the
response is a 302 redirect to `/view/T`; if the write fails the response is
the status 500 with the message of the error, and no redirect. -/
theorem saveHandler_writes_body (env : Env) (st : Storage) (r : Request) (T : List Char) :
    (r.Form "body".toList = [] → r.FormValue "body".toList = []) ∧
    (∀ st1, WriteFile st (pageFile T) (r.FormValue "body".toList) = .ok st1 →
      saveHandler env st r T = (Response.redirect ("/view/".toList ++ T) 302, st1) ∧
      st1.files (pageFile T) = some (r.FormValue "body".toList)) ∧
    (∀ msg, WriteFile st (pageFile T) (r.FormValue "body".toList) = .error msg →
      saveHandler env st r T = (Response.error msg 500, st) ∧
      (saveHandler env st r T).1.statusCode = 500 ∧
      ∀ url code, (saveHandler env st r T).1 ≠ Response.redirect url code) := by
  have hs : saveHandler env st r T =
      match WriteFile st (pageFile T) (r.FormValue "body".toList) with
      | .error err => (Response.error err 500, st)
      | .ok st1 => (Response.redirect ("/view/".toList ++ T) 302, st1) := rfl
  refine ⟨?_, ?_, ?_⟩
  · intro h
    simp only [Request.FormValue, h]
  · intro st1 h
    rw [hs, h]
    refine ⟨rfl, ?_⟩
    unfold WriteFile at h
    split at h
    · cases h
    · injection h with h
      subst h
      simp
  · intro msg h
    rw [hs, h]
    exact ⟨rfl, rfl, fun url code hh => Response.noConfusion hh⟩

/-- C7, saving the form body `Hello [World]` as `Test`, saving a form without
the field over an existing page, and saving where nothing can be written. -/
theorem saveHandler_writes_body_witness :
    (∃ st1, saveHandler sampleEnv emptyStorage
        (sampleRequest "/save/Test".toList "Hello [World]".toList) "Test".toList =
          (Response.redirect "/view/Test".toList 302, st1) ∧
        st1.files "data/Test.txt".toList = some "Hello [World]".toList) ∧
    (∃ st1, saveHandler sampleEnv oldTestStorage
        { Path := "/save/Test".toList, Form := fun _ => [] } "Test".toList =
          (Response.redirect "/view/Test".toList 302, st1) ∧
        st1.files "data/Test.txt".toList = some []) ∧
    saveHandler sampleEnv readOnlyStorage
        (sampleRequest "/save/Test".toList "Hello".toList) "Test".toList =
      (Response.error "permission denied".toList 500, readOnlyStorage) :=
  ⟨⟨_, (saveHandler_writes_body sampleEnv emptyStorage
      (sampleRequest "/save/Test".toList "Hello [World]".toList) "Test".toList).2.1 _ rfl⟩,
    ⟨_, (saveHandler_writes_body sampleEnv oldTestStorage
      { Path := "/save/Test".toList, Form := fun _ => [] } "Test".toList).2.1 _ rfl⟩,
    ((saveHandler_writes_body sampleEnv readOnlyStorage
      (sampleRequest "/save/Test".toList "Hello".toList) "Test".toList).2.2
        "permission denied".toList rfl).1⟩

/-- C8: for a page built by `NewPage` or `NewPageWithBody`, the flag `IsFront`
is true after `renderTemplate` exactly when the title equals `FrontPage` up to
the case of its letters, or is empty; the title and the body are unchanged.
The lower-casing table is assumed to send no rune outside ASCII to a letter of
`frontpage`, as the table of Unicode does. -/
theorem renderTemplate_IsFront_iff (env : Env)
    (hlow : ∀ c : Char, 128 ≤ c.toNat → env.unicodeToLower c ∉ "frontpage".toList)
    (tmpl title body : List Char) :
    (((renderTemplate env tmpl (NewPage title)).2.IsFront = true ↔
        (EqIgnoreCase title "FrontPage".toList ∨ title = [])) ∧
      (renderTemplate env tmpl (NewPage title)).2.Title = title ∧
      (renderTemplate env tmpl (NewPage title)).2.Body = []) ∧
    (((renderTemplate env tmpl (NewPageWithBody title body)).2.IsFront = true ↔
        (EqIgnoreCase title "FrontPage".toList ∨ title = [])) ∧
      (renderTemplate env tmpl (NewPageWithBody title body)).2.Title = title ∧
      (renderTemplate env tmpl (NewPageWithBody title body)).2.Body = body) := by
  have key : ∀ p : Page, p.IsFront = false →
      ((renderTemplate env tmpl p).2.IsFront = true ↔
        (EqIgnoreCase p.Title "FrontPage".toList ∨ p.Title = [])) ∧
      (renderTemplate env tmpl p).2.Title = p.Title ∧
      (renderTemplate env tmpl p).2.Body = p.Body := by
    intro p hp
    have hiff := ToLower_frontPage env hlow p.Title
    simp only [renderTemplate]
    by_cases hc : ToLower env p.Title = "frontpage".toList ∨ p.Title = []
    · rw [if_pos hc]
      refine ⟨⟨fun _ => ?_, fun _ => rfl⟩, rfl, rfl⟩
      rcases hc with hc | hc
      · exact Or.inl (hiff.1 hc)
      · exact Or.inr hc
    · rw [if_neg hc]
      refine ⟨⟨fun h => ?_, fun h => ?_⟩, rfl, rfl⟩
      · rw [hp] at h
        cases h
      · exfalso
        apply hc
        rcases h with h | h
        · exact Or.inl (hiff.2 h)
        · exact Or.inr h
  exact ⟨key (NewPage title) rfl, key (NewPageWithBody title body) rfl⟩

/-- C8, at the titles `FRONTpage` and `Home`. -/
theorem renderTemplate_IsFront_iff_witness :
    (∀ c : Char, 128 ≤ c.toNat → sampleEnv.unicodeToLower c ∉ "frontpage".toList) ∧
    (renderTemplate sampleEnv "view".toList (NewPage "FRONTpage".toList)).2.IsFront = true ∧
    ¬ EqIgnoreCase "Home".toList "FrontPage".toList := by
  have hlow : ∀ c : Char, 128 ≤ c.toNat →
      sampleEnv.unicodeToLower c ∉ "frontpage".toList := by
    intro c hc hm
    have : c ∈ "frontpage".toList := hm
    simp only [String.toList, List.mem_cons, List.mem_singleton, List.not_mem_nil,
      or_false] at this
    rcases this with h | h | h | h | h | h | h | h | h <;>
      · subst h; revert hc; decide
  refine ⟨hlow, by decide, ?_⟩
  have h := (renderTemplate_IsFront_iff sampleEnv hlow "view".toList "Home".toList []).1.1
  intro hc
  have h2 := h.2 (Or.inl hc)
  revert h2
  decide

/-- C9: for every body `b`, every token handed to `replacer`, that is the
text of a match that the search for `wikiLink` returns, is a bracketed word: it
begins with `[`, ends with `]` and has length at least 3, so both slice
operations of `replacer` are in bounds and what they leave is the word between
the brackets; `setLink b` never fails; and replacing `replacer` by any callback
that agrees with it on the bracketed words does not change the result, so no
other text is ever handed to the callback. -/
theorem replacer_in_bounds (b : List Char) :
    (∀ pos m, doExecute wikiLink b pos = some m →
      ∃ w, IsWord w ∧ slice b m.a0 m.a1 = "[".toList ++ w ++ "]".toList ∧
        3 ≤ (slice b m.a0 m.a1).length ∧
        ((slice b m.a0 m.a1).take ((slice b m.a0 m.a1).length - 1)).drop 1 = w ∧
        replacer (slice b m.a0 m.a1) = some (anchor w)) ∧
    (∃ out, setLink b = some out) ∧
    (∀ f : List Char → Option (List Char),
      (∀ w, IsWord w →
        f ("[".toList ++ w ++ "]".toList) = replacer ("[".toList ++ w ++ "]".toList)) →
      ReplaceAllFunc wikiLink b f = setLink b) := by
  refine ⟨?_, ⟨refRewrite b, setLink_eq_refRewrite b⟩, fun f hf => ?_⟩
  rotate_left
  · rw [setLink_eq_refRewrite]
    refine ReplaceAllFunc_wikiLink b f fun w hw => ?_
    have h1 := hf w hw
    have h2 : "[".toList ++ w ++ "]".toList = '[' :: (w ++ [']']) := by simp
    rw [h2] at h1
    rw [h1]
    exact (replacer_token w).1
  intro pos m h
  obtain ⟨w, hw, htok⟩ := doExecute_wikiLink_token b pos m h
  have hlen : 0 < w.length := List.length_pos.2 hw.1
  refine ⟨w, hw, by rw [htok]; simp, ?_, ?_, ?_⟩
  · rw [htok]
    simp only [List.length_cons, List.length_append, List.length_nil]
    omega
  · rw [htok]
    exact (replacer_token w).2
  · rw [htok]
    exact (replacer_token w).1

/-- C9, on the body `x[]y[Foo]`: the search from the start finds the token
`[Foo]` at positions 4 to 9, not the empty brackets, on which `replacer` would
work too; on a single bracket it would fail. -/
theorem replacer_in_bounds_witness :
    doExecute wikiLink "x[]y[Foo]".toList 0 =
        some { a0 := 4, a1 := 9, caps := [(1, 5, 8)] } ∧
      replacer "[]".toList = some (anchor []) ∧ replacer "[".toList = none ∧
      ∃ w, IsWord w ∧ slice "x[]y[Foo]".toList 4 9 = "[".toList ++ w ++ "]".toList ∧
        3 ≤ (slice "x[]y[Foo]".toList 4 9).length ∧
        ((slice "x[]y[Foo]".toList 4 9).take
          ((slice "x[]y[Foo]".toList 4 9).length - 1)).drop 1 = w ∧
        replacer (slice "x[]y[Foo]".toList 4 9) = some (anchor w) :=
  ⟨by decide, by decide, by decide,
    (replacer_in_bounds "x[]y[Foo]".toList).1 0 { a0 := 4, a1 := 9, caps := [(1, 5, 8)] }
      (by decide)⟩

/-- C10: link rendering is idempotent, `setLink (setLink b) = setLink b`, and
the output of `setLink` contains no bracketed word. -/
theorem setLink_idempotent (b : List Char) :
    (setLink b).bind setLink = setLink b ∧
    (∀ out, setLink b = some out →
      ∀ u w r, IsWord w → out ≠ u ++ "[".toList ++ w ++ "]".toList ++ r) := by
  constructor
  · rw [setLink_eq_refRewrite b]
    simp only [Option.some_bind]
    rw [setLink_eq_refRewrite, refRewrite_idem b.length b (le_refl _)]
  · intro out hout u w r hw h
    rw [setLink_eq_refRewrite] at hout
    injection hout with hout
    exact refRewrite_no_link b u w r hw (by rw [hout, h]; simp)

/-- C10, on the body `[[x]] [y]`. -/
theorem setLink_idempotent_witness :
    (setLink "[[x]] [y]".toList).bind setLink = setLink "[[x]] [y]".toList ∧
      setLink "[[x]] [y]".toList =
        some ("[".toList ++ anchor "x".toList ++ "] ".toList ++ anchor "y".toList) ∧
      "[".toList ++ anchor "x".toList ++ "] ".toList ++ anchor "y".toList ≠
        "[".toList ++ anchor "x".toList ++ "] ".toList ++ "[".toList ++ "y".toList ++
          "]".toList ++ [] :=
  ⟨(setLink_idempotent "[[x]] [y]".toList).1, by decide,
    (setLink_idempotent "[[x]] [y]".toList).2 _ (by decide)
      ("[".toList ++ anchor "x".toList ++ "] ".toList) "y".toList [] (by decide)⟩

end GoWiki
